import Mathlib

/-!
Shallow embedding of the comic-archive merge engine of `comicmanager`
(`src/comicmanager/core/{file_utils, zip_extractor, cbz_merger}.py`).

Strings are modelled by Lean `String`/`List Char`.  Python Unicode details
that matter to the claims are modelled explicitly:
* `reDigit` models the character class `\d` of `re.split(r'(\d+)', …)`,
  restricted to the decimal digits appearing in this development (ASCII
  `0`-`9`; all of these are in Unicode category Nd, which is what `\d`
  matches).
* `pyIsDigitChar` models Python `str.isdigit` at character level: it accepts
  every decimal digit and additionally digit-like characters that are *not*
  decimal digits (category No), such as the superscripts `¹ ² ³`.  Python's
  `int(...)` conversion accepts only decimal digits, hence `pyInt` below is
  partial.
The filesystem is modelled as a finite map from path strings to file nodes;
an archive either opens (listing its entries succeeds) or is corrupt
(`zipfile.BadZipFile` on open).  Reading an individual archive member may
fail (`data = none`), which models per-entry read errors (bad CRC, …).
-/

namespace ComicManager

/-- Model of the character class `\d` used by `re.split(r'(\d+)', name)`:
decimal digits (Unicode category Nd; ASCII fragment). -/
def reDigit (c : Char) : Bool := c.isDigit

/-- Superscript digit characters: `str.isdigit` is `True` for them although
they are not decimal digits (`\d` does not match them and `int()` rejects
them). -/
def superDigits : List Char := ['¹', '²', '³', '⁰', '⁴', '⁵', '⁶', '⁷', '⁸', '⁹']

/-- Character-level model of Python `str.isdigit`: true on decimal digits and
on digit-like characters such as superscripts. -/
def pyIsDigitChar (c : Char) : Bool := c.isDigit || superDigits.contains c

/-- Model of Python `text.isdigit()`: nonempty and every character digit-like. -/
def pyStrIsDigit (s : List Char) : Bool := !s.isEmpty && s.all pyIsDigitChar

/-- Numeric value of a list of decimal digits. -/
def digitsVal : List Char → Nat → Nat
  | [], acc => acc
  | c :: cs, acc => digitsVal cs (acc * 10 + (c.toNat - '0'.toNat))

/-- Model of Python `int(text)` on the strings this code feeds it (runs of
digit-like characters): succeeds exactly when every character is a decimal
digit; `int('²')` raises `ValueError`, modelled by `none`. -/
def pyInt (s : List Char) : Option Nat :=
  if !s.isEmpty && s.all reDigit then some (digitsVal s 0) else none

/-- Uppercase/lowercase letter pairs (the ASCII fragment of `str.lower`;
every other character, including `²` and CJK characters, is left unchanged
by Python's `lower`, as here). -/
def upperLowerTable : List (Char × Char) :=
  [('A', 'a'), ('B', 'b'), ('C', 'c'), ('D', 'd'), ('E', 'e'), ('F', 'f'),
   ('G', 'g'), ('H', 'h'), ('I', 'i'), ('J', 'j'), ('K', 'k'), ('L', 'l'),
   ('M', 'm'), ('N', 'n'), ('O', 'o'), ('P', 'p'), ('Q', 'q'), ('R', 'r'),
   ('S', 's'), ('T', 't'), ('U', 'u'), ('V', 'v'), ('W', 'w'), ('X', 'x'),
   ('Y', 'y'), ('Z', 'z')]

/-- Lowercase a character (model of `str.lower` at character level). -/
def lowerChar (c : Char) : Char := (upperLowerTable.lookup c).getD c

/-- Maximal runs of characters with constant `reDigit` classification,
in order; concatenating the runs gives back the string. -/
def splitRuns : List Char → List (List Char)
  | [] => []
  | c :: cs =>
    match splitRuns cs with
    | [] => [[c]]
    | [] :: rs => [c] :: [] :: rs
    | (d :: r) :: rs =>
      if reDigit c = reDigit d then (c :: d :: r) :: rs
      else [c] :: (d :: r) :: rs

/-- Whether a run (assumed homogeneous) is a digit run. -/
def isDigitRun (r : List Char) : Bool :=
  match r with
  | [] => false
  | c :: _ => reDigit c

/-- Model of `re.split(r'(\d+)', s)`: the alternating list
`[text, digits, text, …, text]` beginning and ending with a (possibly empty)
non-digit piece. -/
def reSplitDigits (s : List Char) : List (List Char) :=
  match splitRuns s with
  | [] => [[]]
  | r :: rs =>
    let runs := if isDigitRun r then [] :: r :: rs else r :: rs
    if isDigitRun (((r :: rs).getLast?).getD []) then runs ++ [[]] else runs

/-- A sort-key piece produced by `natural_sort_key`: a lowercased text run or
the integer value of a digit run. -/
inductive SKey where
  | str (s : List Char)
  | int (n : Nat)
deriving Repr, DecidableEq

/-- One piece of the key: `int(text)` if `text.isdigit()` else `text.lower()`.
`none` models the `ValueError` raised by `int` on digit-like non-decimal
text such as `'²'`. -/
def pieceKey (t : List Char) : Option SKey :=
  if pyStrIsDigit t then (pyInt t).map SKey.int
  else some (SKey.str (t.map lowerChar))

/-- Split a character list at every occurrence of `c` (Python `s.split(c)`). -/
def splitOnChar (c : Char) : List Char → List (List Char)
  | [] => [[]]
  | a :: as =>
    match splitOnChar c as with
    | [] => [[]]
    | h :: t => if a = c then [] :: h :: t else (a :: h) :: t

/-- `parts[-1]`: the leaf filename of a `/`-separated entry name. -/
def leafName (s : List Char) : List Char :=
  ((splitOnChar '/' s).getLast?).getD s

/-- Model of `natural_sort_key` from
`ZIPExtractor.validate_zip_file` (zip_extractor.py lines 116-131) applied to
an entry name: split the leaf filename into digit / non-digit runs; digit
runs become integers, other runs are lowercased.  `none` models an uncaught
`ValueError` from `int(...)`. -/
def natKeyOfName (name : List Char) : Option (List SKey) :=
  (reSplitDigits (leafName name)).mapM pieceKey

/-- Code-point comparison of character lists (Python `str` ordering). -/
def cmpChars : List Char → List Char → Ordering
  | [], [] => .eq
  | [], _ :: _ => .lt
  | _ :: _, [] => .gt
  | a :: as, b :: bs =>
    if a.toNat < b.toNat then .lt
    else if b.toNat < a.toNat then .gt
    else cmpChars as bs

/-- Comparison of two key pieces; `none` models the `TypeError` Python raises
when ordering an `int` against a `str`. -/
def cmpPiece : SKey → SKey → Option Ordering
  | .str a, .str b => some (cmpChars a b)
  | .int a, .int b => some (compare a b)
  | _, _ => none

/-- Python list comparison of two sort keys: first non-equal pieces decide,
a strict prefix is smaller; `none` when the deciding pieces have unlike types
(`TypeError`). -/
def cmpKey : List SKey → List SKey → Option Ordering
  | [], [] => some .eq
  | [], _ :: _ => some .lt
  | _ :: _, [] => some .gt
  | a :: as, b :: bs =>
    if a = b then cmpKey as bs
    else match cmpPiece a b with
      | none => none
      | some .eq => cmpKey as bs
      | some o => some o

/-- `pat.take`-based check that `pat` begins `s`. -/
def beginsWith (pat s : List Char) : Bool := s.take pat.length = pat

/-- Substring containment (Python `pat in s`). -/
def containsSub (s pat : List Char) : Bool :=
  beginsWith pat s ||
    match s with
    | [] => false
    | _ :: t => containsSub t pat

/-- Suffix check (Python `s.endswith(suf)`). -/
def endsWith (s suf : List Char) : Bool :=
  decide (suf.length ≤ s.length) && (s.drop (s.length - suf.length) = suf)

/-- Position of the last `.` in a name, if any (Python `name.rfind('.')`
restricted to found/not-found). -/
def lastDotIdx : List Char → Option Nat
  | [] => none
  | c :: cs =>
    match lastDotIdx cs with
    | some i => some (i + 1)
    | none => if c = '.' then some 0 else none

/-- Python `PurePath.name` for the paths this code passes (no trailing `/`):
the last `/`-separated component. -/
def pathLeaf (p : List Char) : List Char := leafName p

/-- Python `PurePath.suffix`: `name[i:]` where `i` is the position of the last
dot, provided `0 < i < len(name) - 1`; empty otherwise (so `.jpg` and `b.`
have no suffix). -/
def pySuffix (p : List Char) : List Char :=
  let n := pathLeaf p
  match lastDotIdx n with
  | none => []
  | some i => if 0 < i ∧ i + 1 < n.length then n.drop i else []

/-- `Path(p).suffix.lower()` as a `String`. -/
def suffixLower (p : String) : String :=
  String.mk ((pySuffix p.data).map lowerChar)

/-- `Path(p).suffix.lower().lstrip('.')`: the extension without its dot. -/
def extNoDot (p : String) : String :=
  String.mk (((pySuffix p.data).map lowerChar).dropWhile (· = '.'))

/-- `name.lower()` as used by `extract_comic_info`. -/
def lowerStr (s : String) : String := String.mk (s.data.map lowerChar)

/-- Python `PurePath.parent` rendered as a string: everything before the last
`/`, `"."` when there is no `/`, `"/"` for a root child. -/
def parentOf (p : String) : String :=
  let segs := splitOnChar '/' p.data
  match segs with
  | [] => "."
  | [_] => "."
  | _ :: _ :: _ =>
    let pre := (segs.dropLast.map String.mk).intersperse "/"
    let joined := String.join pre
    if joined = "" then "/" else joined

/-- Code-point `≤` on strings (Python `str` ordering, used by `list.sort()`
and `sorted(...)`). -/
def strLe (a b : String) : Bool := cmpChars a.data b.data ≠ .gt

/-- Insert into a sorted list, after every element `y` with `le y x`
(preserves the stability of Python's sort). -/
def insertLe (le : α → α → Bool) (x : α) : List α → List α
  | [] => [x]
  | y :: ys => if le y x then y :: insertLe le x ys else x :: y :: ys

/-- Stable insertion sort (model of Python `list.sort` / `sorted`). -/
def sortS (le : α → α → Bool) (l : List α) : List α :=
  l.foldl (fun acc x => insertLe le x acc) []

/-! ## Filesystem and archive model -/

/-- One member of a ZIP container: its stored name, the uncompressed and
compressed sizes from its header, and its bytes; `data = none` models a
member whose read raises (bad CRC, truncation, …). -/
structure ZipEntry where
  name : String
  fileSize : Nat
  compressSize : Nat
  data : Option (List Nat)
deriving Repr, DecidableEq

/-- A file on disk: either a container that opens as a ZIP archive (listing
entries succeeds) or a corrupt blob (`zipfile.BadZipFile` on open). -/
inductive FileNode where
  | archive (entries : List ZipEntry)
  | corrupt (bytes : List Nat)
deriving Repr, DecidableEq

/-- Filesystem state: regular files with contents, existing directories, and
the subset of directories writable by the process. -/
structure FS where
  files : List (String × FileNode)
  dirs : List String
  writable : List String
deriving Repr

/-- Lookup of a regular file (`path.exists() and path.is_file()`). -/
def FS.file? (fs : FS) (p : String) : Option FileNode := fs.files.lookup p

/-- The supported image formats, `SUPPORTED_IMAGE_FORMATS`
(zip_extractor.py line 16). -/
def SUPPORTED_IMAGE_FORMATS : List String := ["jpg", "jpeg", "png", "webp", "gif", "bmp"]

/-- The dotted image suffixes used by `is_valid_zip_file`,
`extract_comic_info` and the merge packaging step. -/
def imageSuffixes : List String := [".jpg", ".jpeg", ".png", ".webp", ".gif", ".bmp"]

namespace FileUtils

/-- `FileUtils.is_valid_cbz_file` (file_utils.py lines 17-35): the path must
exist as a regular file, carry the `.cbz` extension case-insensitively, and
its container must open with `namelist()` succeeding. -/
def is_valid_cbz_file (fs : FS) (p : String) : Bool :=
  match fs.file? p with
  | none => false
  | some node =>
    if suffixLower p ≠ ".cbz" then false
    else match node with
      | .archive _ => true
      | .corrupt _ => false

/-- The per-entry filter of `is_valid_zip_file` (file_utils.py lines 61-73):
skip directory entries, skip names containing `..` or starting with `/`,
keep names whose dotted suffix is a supported image suffix. -/
def zipImageEntry (name : String) : Bool :=
  !endsWith name.data ['/'] &&
  !containsSub name.data ['.', '.'] &&
  !beginsWith ['/'] name.data &&
  imageSuffixes.contains (suffixLower name)

/-- `FileUtils.is_valid_zip_file` (file_utils.py lines 37-92): `.zip`
extension, container opens, and at least one entry passes `zipImageEntry`. -/
def is_valid_zip_file (fs : FS) (p : String) : Bool :=
  match fs.file? p with
  | none => false
  | some node =>
    if suffixLower p ≠ ".zip" then false
    else match node with
      | .corrupt _ => false
      | .archive es => es.any (fun e => zipImageEntry e.name)

/-- `FileUtils.is_valid_comic_file` (file_utils.py lines 94-98). -/
def is_valid_comic_file (fs : FS) (p : String) : Bool :=
  is_valid_cbz_file fs p || is_valid_zip_file fs p

/-- `FileUtils.get_file_type` (file_utils.py lines 100-113).  Note: a path
whose extension is `.cbz` is classified `CBZ` immediately, without opening
the container; `is_valid_cbz_file` is consulted only for `.zip` paths. -/
def get_file_type (fs : FS) (p : String) : String :=
  let suffix := suffixLower p
  if suffix = ".cbz" then "CBZ"
  else if suffix = ".zip" then
    if is_valid_cbz_file fs p then "CBZ"
    else if is_valid_zip_file fs p then "ZIP"
    else "UNKNOWN"
  else "UNKNOWN"

/-- The entry-name filter of `extract_comic_info` (file_utils.py lines
133-134): lowercased name ends with one of the image suffixes. -/
def imageNameFilter (name : String) : Bool :=
  imageSuffixes.any (fun suf => endsWith (lowerStr name).data suf.data)

/-- The information record built by `extract_comic_info`.  The byte size of
the container file on disk (`file_size`) is not modelled: no claim mentions
it and the `FS` model does not track sizes of container files. -/
structure ComicRec where
  fileName : String
  fileType : String
  pageCount : Nat
  imageFiles : List String
  comicInfo : Option (List Nat)
  totalFiles : Nat
deriving Repr, DecidableEq

/-- `FileUtils.extract_comic_info` (file_utils.py lines 115-148): open the
container (errors become an `error` record), find an embedded
`…comicinfo.xml`, filter entry names to image names and sort them
lexicographically; `page_count` is the length of that list. -/
def extract_comic_info (fs : FS) (p : String) : Except String ComicRec :=
  match fs.file? p with
  | none => .error "FileNotFoundError"
  | some (.corrupt _) => .error "BadZipFile"
  | some (.archive es) =>
    let names := es.map (fun e => e.name)
    let comicInfo :=
      match es.find? (fun e => endsWith (lowerStr e.name).data "comicinfo.xml".data) with
      | none => none
      | some e => e.data
    let imageFiles := sortS strLe (names.filter imageNameFilter)
    .ok ⟨pathLeaf p.data |> String.mk, get_file_type fs p, imageFiles.length,
         imageFiles, comicInfo, es.length⟩

/-- `FileUtils.validate_output_path` (file_utils.py lines 214-234) with the
default `overwrite=False`: parent directory must exist and be writable and
the output file must not already exist. -/
def validate_output_path (fs : FS) (p : String) : Bool × String :=
  let parent := parentOf p
  if !fs.dirs.contains parent then (false, "目录不存在: " ++ parent)
  else if !fs.writable.contains parent then (false, "目录不可写: " ++ parent)
  else if (fs.file? p).isSome then (false, "文件已存在: " ++ p)
  else (true, "路径有效")

end FileUtils

namespace ZIPExtractor

/-- The per-entry scan filter of `ZIPExtractor.validate_zip_file`
(zip_extractor.py lines 86-103): skip empty names and directory entries,
skip names containing `..` or starting with `/` (anti path-traversal), keep
entries whose extension is supported and whose declared size is at most
100 MiB. -/
def scanKeep (e : ZipEntry) : Bool :=
  !e.name.data.isEmpty &&
  !endsWith e.name.data ['/'] &&
  !containsSub e.name.data ['.', '.'] &&
  !beginsWith ['/'] e.name.data &&
  SUPPORTED_IMAGE_FORMATS.contains (extNoDot e.name) &&
  decide (e.fileSize ≤ 100 * 1024 * 1024)

/-- A scanned image entry as recorded by `validate_zip_file`: name,
extension without dot, declared size, and the member bytes (carried through
so that extraction can read them). -/
structure ZipScanRec where
  name : String
  ext : String
  size : Nat
  data : Option (List Nat)
deriving Repr, DecidableEq

/-- Comparator used by `image_files.sort(key=natural_sort_key)`; total on
records whose keys compute (the guard in `validate_zip_file` below). -/
def nkLe (a b : ZipScanRec) : Bool :=
  cmpKey ((natKeyOfName a.name.data).getD []) ((natKeyOfName b.name.data).getD []) ≠ some .gt

/-- The result record of `validate_zip_file`. -/
structure ZipValidation where
  valid : Bool
  error : Option String
  image_files : List ZipScanRec
  total_files : Nat
deriving Repr, DecidableEq

/-- `ZIPExtractor.validate_zip_file` (zip_extractor.py lines 46-151):
existence, `.zip` extension and container checks, the safety/format/size
scan, then the natural sort of the scanned entries.  When `natural_sort_key`
raises on some entry name (see `natKeyOfName`), the generic `except` turns
the sort's `ValueError` into an error result. -/
def validate_zip_file (fs : FS) (p : String) : ZipValidation :=
  match fs.file? p with
  | none => ⟨false, some "文件不存在或不是文件", [], 0⟩
  | some node =>
    if suffixLower p ≠ ".zip" then ⟨false, some "不是ZIP文件", [], 0⟩
    else match node with
      | .corrupt _ => ⟨false, some "ZIP文件损坏或格式无效", [], 0⟩
      | .archive es =>
        let imgs := (es.filter scanKeep).map
          (fun e => ZipScanRec.mk e.name (extNoDot e.name) e.fileSize e.data)
        if imgs.any (fun r => (natKeyOfName r.name.data).isNone) then
          ⟨false, some "验证ZIP文件时出错: ValueError", [], es.length⟩
        else
          let sortedImgs := sortS nkLe imgs
          if sortedImgs.isEmpty then
            ⟨false, some "ZIP文件中未找到支持的图片文件 (JPG, JPEG, PNG, WEBP, GIF, BMP)",
             sortedImgs, es.length⟩
          else ⟨true, none, sortedImgs, es.length⟩

/-- One file written to disk by `extract_images`: the source member name,
the new file name `{chapterLabel}_{i+1:03d}.{ext}`, the full on-disk path
`outputDir ++ "/" ++ fileName`, and the bytes written. -/
structure ExtractWrite where
  srcName : String
  fileName : String
  path : String
  data : List Nat
deriving Repr, DecidableEq

/-- The result of `extract_images` together with its writes.  The code's
result dict also carries an `extracted_files` list, which the source never
appends to; the `writes` field here models the files actually created on
disk (an effect, not a dict field). -/
structure ExtractRes where
  success : Bool
  error : Option String
  total_extracted : Nat
  writes : List ExtractWrite
deriving Repr, DecidableEq

/-- The character of a decimal digit value. -/
def digitChar (d : Nat) : Char := Char.ofNat ('0'.toNat + d)

/-- Decimal digits of `n`, most significant first, with explicit fuel so the
recursion is structural (the fuel `n + 1` always suffices). -/
def natDigitsFuel : Nat → Nat → List Char
  | 0, _ => []
  | fuel + 1, n => if n = 0 then [] else natDigitsFuel fuel (n / 10) ++ [digitChar (n % 10)]

/-- Decimal rendering of a natural number. -/
def natDigits (n : Nat) : List Char :=
  if n = 0 then ['0'] else natDigitsFuel (n + 1) n

/-- Zero-padded decimal rendering, `f"{n:0wd}"`. -/
def padNum (w n : Nat) : String :=
  String.mk (List.replicate (w - (natDigits n).length) '0' ++ natDigits n)

/-- The extraction loop of `extract_images` (zip_extractor.py lines
215-242), with `i` the 0-based `enumerate` index over the filtered target
list: a member whose read raises (`data = none`) is logged and skipped, but
still consumes its index; a readable member is written to
`outputDir ++ "/" ++ chapterLabel ++ "_" ++ (i+1 padded to 3) ++ "." ++ ext`. -/
def buildWrites (chapterLabel outputDir : String) : Nat → List ZipScanRec → List ExtractWrite
  | _, [] => []
  | i, r :: rest =>
    match r.data with
    | none => buildWrites chapterLabel outputDir (i + 1) rest
    | some d =>
      let newName := chapterLabel ++ "_" ++ padNum 3 (i + 1) ++ "." ++ r.ext
      ExtractWrite.mk r.name newName (outputDir ++ "/" ++ newName) d ::
        buildWrites chapterLabel outputDir (i + 1) rest

/-- `ZIPExtractor.extract_images` (zip_extractor.py lines 153-254).
`imageFormats = none` models the caller passing no `image_formats` argument
(the parameter defaults to `None`); the code never replaces `None` by a
default, so the membership test `img_file['extension'] in image_formats`
raises `TypeError`, which the generic `except` converts into an error
result.  Individual member read failures (`data = none`) are logged and
skipped; the write for target number `i` (0-based within the filtered list)
is named `{chapterLabel}_{i+1:03d}.{ext}`. -/
def extract_images (fs : FS) (zipPath outputDir : String)
    (imageFormats : Option (List String)) (chapterLabel : String) : ExtractRes :=
  match fs.file? zipPath with
  | none => ⟨false, some "ZIP文件不存在", 0, []⟩
  | some _ =>
    if suffixLower zipPath ≠ ".zip" then ⟨false, some "不是ZIP文件", 0, []⟩
    else
      let v := validate_zip_file fs zipPath
      if !v.valid then ⟨false, v.error, 0, []⟩
      else
        match imageFormats with
        | none =>
          ⟨false, some "提取图片时出错: argument of type 'NoneType' is not iterable", 0, []⟩
        | some fmts =>
          let targets := v.image_files.filter (fun r => fmts.contains r.ext)
          if targets.isEmpty then
            ⟨false, some "ZIP文件中没有找到指定格式的图片", 0, []⟩
          else
            let ws := buildWrites chapterLabel outputDir 0 targets
            ⟨true, none, ws.length, ws⟩

end ZIPExtractor

namespace CBZMerger

/-- The accumulator of `validate_comic_files` (cbz_merger.py lines 42-85).
The byte-size total (`total_size`) is not modelled (no claim mentions it);
the `errors` list stays empty because in this model `is_valid_comic_file`
and `extract_comic_info` return rather than raise, as they do in the
source (both catch all their exceptions). -/
structure ValidationResult where
  valid_files : List FileUtils.ComicRec
  invalid_files : List (String × String)
  total_pages : Nat
deriving Repr, DecidableEq

/-- `CBZMerger.validate_comic_files` (cbz_merger.py lines 42-85): a path is
recorded invalid when `is_valid_comic_file` rejects it or
`extract_comic_info` reports an error; otherwise its page count is
accumulated. -/
def validate_comic_files (fs : FS) : List String → ValidationResult
  | [] => ⟨[], [], 0⟩
  | p :: rest =>
    let r := validate_comic_files fs rest
    if !FileUtils.is_valid_comic_file fs p then
      ⟨r.valid_files, (p, "不是有效的漫画文件（CBZ或ZIP）") :: r.invalid_files, r.total_pages⟩
    else
      match FileUtils.extract_comic_info fs p with
      | .error e => ⟨r.valid_files, (p, e) :: r.invalid_files, r.total_pages⟩
      | .ok info =>
        ⟨info :: r.valid_files, r.invalid_files, r.total_pages + info.pageCount⟩

/-- Filesystem effects of one `merge_comic_files` call, in order.
`createWorkDir` is the `tempfile.mkdtemp(prefix='comicmanager_merge_')` of
the merge working directory; `extractArchive` is the scratch
`extractall` of one CBZ input; `zipExtract` is the delegated extraction of
one ZIP input into the working directory; `writeOutput` is the creation of
the output archive, whose entries are the listed image names in order
followed by `ComicInfo.xml` when `meta` is true.  (The `ZIPExtractor()`
constructed during validation allocates an unrelated, never-used temp
directory on every call path; it is not a merge working directory and is
not modelled as an effect.) -/
inductive MergeEffect where
  | createWorkDir
  | extractArchive (path : String)
  | zipExtract (path : String)
  | writeOutput (path : String) (images : List String) (meta : Bool)
deriving Repr, DecidableEq

/-- A clean relative name: no empty, `.` or `..` path components (hence no
leading `/`).  Python's `ZipFile.extractall` materializes each member at its
sanitized path — it drops empty, `.` and `..` components and leading
separators — so `Path(scratch)/name` exists after `extractall` exactly for
clean names. -/
def cleanName (name : String) : Bool :=
  decide (∀ seg ∈ splitOnChar '/' name.data, seg ≠ [] ∧ seg ≠ ['.'] ∧ seg ≠ ['.', '.'])

/-- The CBZ copy loop of `merge_comic_files` (cbz_merger.py lines 166-176):
for each image name whose scratch copy exists, write it to the working
directory as `{page_number:04d}{original_suffix}` and advance the page
counter; names whose scratch copy is missing are silently skipped without
advancing the counter.  Returns the final counter and the new file names. -/
def copyImages (page : Nat) : List String → Nat × List String
  | [] => (page, [])
  | img :: rest =>
    if cleanName img then
      let newName := ZIPExtractor.padNum 4 page ++ String.mk (pySuffix img.data)
      let r := copyImages (page + 1) rest
      (r.1, newName :: r.2)
    else copyImages page rest

/-- Outcome of processing a prefix of the input list inside
`merge_comic_files`: final page counter, file names now in the working
directory (in creation order), accumulated non-fatal error strings, number
of `merged_info` records, and effects. -/
structure ProcOut where
  page : Nat
  work : List String
  errs : List String
  merged : Nat
  effs : List MergeEffect
deriving Repr, DecidableEq

/-- The abstract path of the merge working directory
(`tempfile.mkdtemp(prefix='comicmanager_merge_')`). -/
def workDirPath : String := "/tmp/comicmanager_merge"

/-- Processing of one input file inside the merge loop (cbz_merger.py lines
151-232), at 0-based position `i` with page counter `page`.  A `CBZ` input
is unpacked to scratch and its image files copied under global 4-digit
numbering; any exception while doing so (corrupt container, unreadable
member) is recorded as a non-fatal error and the file is skipped.  A `ZIP`
input is delegated to `ZIPExtractor.extract_images` with chapter label
`ch{i+1}`; on success the page counter advances by the extracted count. -/
def stepFile (fs : FS) (fmts : List String) (i : Nat) (p : String) (page : Nat) : ProcOut :=
  let ft := FileUtils.get_file_type fs p
  if ft = "CBZ" then
    match fs.file? p with
    | some (.archive es) =>
      if es.all (fun e => e.data.isSome) then
        match FileUtils.extract_comic_info fs p with
        | .ok info =>
          let r := copyImages page info.imageFiles
          ⟨r.1, r.2, [], 1, [.extractArchive p]⟩
        | .error e =>
          ⟨page, [], ["处理文件 " ++ p ++ " 时出错: " ++ e], 0, [.extractArchive p]⟩
      else
        ⟨page, [], ["处理文件 " ++ p ++ " 时出错: BadZipFile"], 0, [.extractArchive p]⟩
    | _ =>
      ⟨page, [], ["处理文件 " ++ p ++ " 时出错: BadZipFile"], 0, []⟩
  else if ft = "ZIP" then
    let er := ZIPExtractor.extract_images fs p workDirPath (some fmts)
      ("ch" ++ toString (i + 1))
    if er.success then
      ⟨page + er.total_extracted, er.writes.map (fun w => w.fileName), [], 1, [.zipExtract p]⟩
    else
      ⟨page, [], ["从ZIP文件提取图片失败: " ++ er.error.getD "未知错误"], 0, [.zipExtract p]⟩
  else
    ⟨page, [], [], 0, []⟩

/-- The merge loop over the input list (cbz_merger.py lines 143-232). -/
def processFiles (fs : FS) (fmts : List String) : List String → Nat → Nat → ProcOut
  | [], _, page => ⟨page, [], [], 0, []⟩
  | p :: rest, i, page =>
    let s := stepFile fs fmts i p page
    let r := processFiles fs fmts rest (i + 1) s.page
    ⟨r.page, s.work ++ r.work, s.errs ++ r.errs, s.merged + r.merged, s.effs ++ r.effs⟩

/-- The result record of `merge_comic_files`. -/
structure MergeRes where
  success : Bool
  error : Option String
  invalid_files : List (String × String)
  total_pages : Nat
  errors : List String
deriving Repr, DecidableEq

/-- Packaging filter (cbz_merger.py lines 240-242): working-directory files
with a supported image suffix. -/
def isImageFile (name : String) : Bool := imageSuffixes.contains (suffixLower name)

/-- `CBZMerger.merge_comic_files` (cbz_merger.py lines 91-270), returning
the result record and the ordered filesystem effects.  Gate order follows
the source: input validation (abort on any invalid file), then output-path
validation, then the working directory is created, every input is processed,
and the output archive is written from the lexicographically sorted image
files of the working directory, with `ComicInfo.xml` appended when
`preserveMetadata` holds and at least one source was merged. -/
def merge_comic_files (fs : FS) (filePaths : List String) (outputPath : String)
    (preserveMetadata : Bool) (zipFormats : Option (List String)) :
    MergeRes × List MergeEffect :=
  let fmts := zipFormats.getD ["jpg"]
  let v := validate_comic_files fs filePaths
  if !v.invalid_files.isEmpty then
    (⟨false, some "部分文件无效", v.invalid_files, 0, []⟩, [])
  else
    let ov := FileUtils.validate_output_path fs outputPath
    if !ov.1 then (⟨false, some ov.2, [], 0, []⟩, [])
    else
      let r := processFiles fs fmts filePaths 0 1
      let outImages := sortS strLe (r.work.filter isImageFile)
      let meta := preserveMetadata && decide (0 < r.merged)
      (⟨true, none, [], r.page - 1, r.errs⟩,
       MergeEffect.createWorkDir :: r.effs ++
         [MergeEffect.writeOutput outputPath outImages meta])

/-- The working-directory names produced by the CBZ copy loop for a run of
image names that all have clean names: `{page:04d}{suffix}` with the counter
starting at `page` and advancing by one per name. -/
def numbered : Nat → List String → List String
  | _, [] => []
  | k, img :: rest =>
    (ZIPExtractor.padNum 4 k ++ String.mk (pySuffix img.data)) :: numbered (k + 1) rest

/-- The sorted image-name list `extract_comic_info` reports for `p` (empty
when inspection fails). -/
def cbzImages (fs : FS) (p : String) : List String :=
  match FileUtils.extract_comic_info fs p with
  | .ok info => info.imageFiles
  | .error _ => []

/-- A fully well-behaved CBZ input: a `.cbz`-named archive, every member
readable, and every image-named member a clean relative path whose
lowercased dotted suffix is a supported image suffix (this excludes bare
dotfile names such as `.jpg`, whose `Path(...).suffix` is empty). -/
def goodCbzInput (fs : FS) (p : String) : Bool :=
  match fs.file? p with
  | some (.archive es) =>
    suffixLower p == ".cbz" &&
    es.all (fun e => e.data.isSome) &&
    es.all (fun e => !FileUtils.imageNameFilter e.name ||
      (cleanName e.name && isImageFile e.name))
  | _ => false

/-- Interpretation of merge effects on the filesystem model: only
`writeOutput` changes it, creating (or replacing) the file at `path` with an
archive whose members are the listed images followed by the optional
metadata document. -/
def applyEffects (fs : FS) : List MergeEffect → FS
  | [] => fs
  | .writeOutput p images meta :: rest =>
    let entries := images.map (fun n => ZipEntry.mk n 0 0 (some [])) ++
      (if meta then [ZipEntry.mk "ComicInfo.xml" 0 0 (some [])] else [])
    applyEffects ⟨(p, FileNode.archive entries) :: fs.files, fs.dirs, fs.writable⟩ rest
  | _ :: rest => applyEffects fs rest

end CBZMerger

/-! ## Predicates used to state the claims -/

/-- The claim's notion of a `..` path segment: one of the `/`-separated
components of the name is exactly `..`. -/
def hasDotDotSegment (name : String) : Bool :=
  decide (['.', '.'] ∈ splitOnChar '/' name.data)

/-- Well-formedness of a sort key: starting from expectation `b`
(`false` = a text piece is expected next), pieces alternate between
lowercased strings and integers. -/
def keyAltOk : Bool → List SKey → Bool
  | _, [] => true
  | false, .str _ :: rest => keyAltOk true rest
  | true, .int _ :: rest => keyAltOk false rest
  | _, _ => false

/-- A run is homogeneous: every character agrees with the run's
classification. -/
def Homog (r : List Char) : Prop := ∀ c ∈ r, reDigit c = isDigitRun r

/-- Invariant of `splitRuns`: runs are nonempty, homogeneous, and adjacent
runs alternate classification. -/
def SplitInv : List (List Char) → Prop
  | [] => True
  | r :: rs =>
    r ≠ [] ∧ Homog r ∧ (∀ r2 ∈ rs.head?, isDigitRun r2 = !isDigitRun r) ∧ SplitInv rs

/-- Alternation of `re.split` pieces starting from expectation `b`
(`false` = text piece expected): text pieces contain no digits, digit pieces
are nonempty and all digits. -/
def PiecesAlt : Bool → List (List Char) → Prop
  | _, [] => True
  | false, t :: rest => (∀ c ∈ t, reDigit c = false) ∧ PiecesAlt true rest
  | true, d :: rest => d ≠ [] ∧ (∀ c ∈ d, reDigit c = true) ∧ PiecesAlt false rest

/-- A concrete two-archive filesystem (page counts `[1, 2]`) used as a
witness input. -/
def fsC2 : FS :=
  ⟨[("a.cbz", .archive [⟨"p1.jpg", 1, 1, some [1]⟩]),
    ("b.cbz", .archive [⟨"q1.jpg", 1, 1, some [2]⟩, ⟨"q2.jpg", 1, 1, some [3]⟩])],
   ["/out"], ["/out"]⟩

/-! ## Supporting lemmas -/

theorem mem_insertLe {α : Type} (le : α → α → Bool) (x : α) (l : List α) (y : α) :
    y ∈ insertLe le x l ↔ y = x ∨ y ∈ l := by
  induction l with
  | nil => simp [insertLe]
  | cons a as ih =>
    unfold insertLe
    split
    · simp only [List.mem_cons, ih]
      tauto
    · simp only [List.mem_cons]

theorem length_insertLe {α : Type} (le : α → α → Bool) (x : α) (l : List α) :
    (insertLe le x l).length = l.length + 1 := by
  induction l with
  | nil => rfl
  | cons a as ih =>
    unfold insertLe
    split
    · simp [ih]
    · simp

theorem mem_sortS_aux {α : Type} (le : α → α → Bool) (l acc : List α) (y : α) :
    y ∈ l.foldl (fun a x => insertLe le x a) acc ↔ y ∈ acc ∨ y ∈ l := by
  induction l generalizing acc with
  | nil => simp
  | cons a as ih =>
    simp only [List.foldl_cons, ih, mem_insertLe, List.mem_cons]
    tauto

theorem mem_sortS {α : Type} (le : α → α → Bool) (l : List α) (y : α) :
    y ∈ sortS le l ↔ y ∈ l := by
  simpa [sortS] using mem_sortS_aux le l [] y

theorem length_sortS_aux {α : Type} (le : α → α → Bool) (l acc : List α) :
    (l.foldl (fun a x => insertLe le x a) acc).length = acc.length + l.length := by
  induction l generalizing acc with
  | nil => simp
  | cons a as ih =>
    simp only [List.foldl_cons, ih, length_insertLe, List.length_cons]
    omega

theorem length_sortS {α : Type} (le : α → α → Bool) (l : List α) :
    (sortS le l).length = l.length := by
  simpa [sortS] using length_sortS_aux le l []

theorem cbz_ext_of_valid (fs : FS) (p : String)
    (h : FileUtils.is_valid_cbz_file fs p = true) : suffixLower p = ".cbz" := by
  by_contra hne
  rcases hf : fs.file? p with _ | node
  · simp [FileUtils.is_valid_cbz_file, hf] at h
  · simp [FileUtils.is_valid_cbz_file, hf, hne] at h

theorem buildWrites_length (lbl dir : String) (l : List ZIPExtractor.ZipScanRec) :
    ∀ i, (ZIPExtractor.buildWrites lbl dir i l).length =
      (l.filter (fun r => r.data.isSome)).length := by
  induction l with
  | nil => intro i; rfl
  | cons r rest ih =>
    intro i
    unfold ZIPExtractor.buildWrites
    cases h : r.data with
    | none => simp [h, List.filter_cons, ih]
    | some d => simp [h, List.filter_cons, ih]

theorem buildWrites_mem (lbl dir : String) (l : List ZIPExtractor.ZipScanRec)
    (w : ZIPExtractor.ExtractWrite) :
    ∀ i, w ∈ ZIPExtractor.buildWrites lbl dir i l →
      ∃ r ∈ l, w.srcName = r.name ∧ w.path = dir ++ "/" ++ w.fileName := by
  induction l with
  | nil => intro i h; cases h
  | cons r rest ih =>
    intro i h
    unfold ZIPExtractor.buildWrites at h
    cases hd : r.data with
    | none =>
      rw [hd] at h
      obtain ⟨r2, hr2, hw⟩ := ih (i + 1) h
      exact ⟨r2, List.mem_cons_of_mem _ hr2, hw⟩
    | some d =>
      rw [hd] at h
      rcases List.mem_cons.mp h with h1 | h2
      · subst h1
        exact ⟨r, List.mem_cons_self _ _, rfl, rfl⟩
      · obtain ⟨r2, hr2, hw⟩ := ih (i + 1) h2
        exact ⟨r2, List.mem_cons_of_mem _ hr2, hw⟩

theorem validate_zip_of_none (fs : FS) (zp : String) (hf : fs.file? zp = none) :
    ZIPExtractor.validate_zip_file fs zp =
      ⟨false, some "文件不存在或不是文件", [], 0⟩ := by
  unfold ZIPExtractor.validate_zip_file
  rw [hf]

theorem validate_zip_of_suffix (fs : FS) (zp : String) (node : FileNode)
    (hf : fs.file? zp = some node) (hsuf : suffixLower zp ≠ ".zip") :
    ZIPExtractor.validate_zip_file fs zp = ⟨false, some "不是ZIP文件", [], 0⟩ := by
  unfold ZIPExtractor.validate_zip_file
  rw [hf]
  dsimp only
  rw [if_pos hsuf]

theorem extract_of_none (fs : FS) (zp dir : String) (f : Option (List String)) (lbl : String)
    (hf : fs.file? zp = none) :
    ZIPExtractor.extract_images fs zp dir f lbl = ⟨false, some "ZIP文件不存在", 0, []⟩ := by
  unfold ZIPExtractor.extract_images
  rw [hf]

theorem extract_of_suffix (fs : FS) (zp dir : String) (f : Option (List String)) (lbl : String)
    (node : FileNode) (hf : fs.file? zp = some node) (hsuf : suffixLower zp ≠ ".zip") :
    ZIPExtractor.extract_images fs zp dir f lbl = ⟨false, some "不是ZIP文件", 0, []⟩ := by
  unfold ZIPExtractor.extract_images
  rw [hf]
  dsimp only
  rw [if_pos hsuf]

theorem extract_of_invalid (fs : FS) (zp dir : String) (f : Option (List String)) (lbl : String)
    (node : FileNode) (hf : fs.file? zp = some node) (hsuf : ¬ suffixLower zp ≠ ".zip")
    (hv : (ZIPExtractor.validate_zip_file fs zp).valid = false) :
    ZIPExtractor.extract_images fs zp dir f lbl =
      ⟨false, (ZIPExtractor.validate_zip_file fs zp).error, 0, []⟩ := by
  unfold ZIPExtractor.extract_images
  rw [hf]
  dsimp only
  rw [if_neg hsuf]
  simp [hv]

theorem extract_of_valid (fs : FS) (zp dir : String) (fmts : List String) (lbl : String)
    (node : FileNode) (hf : fs.file? zp = some node) (hsuf : ¬ suffixLower zp ≠ ".zip")
    (hv : (ZIPExtractor.validate_zip_file fs zp).valid = true) :
    ZIPExtractor.extract_images fs zp dir (some fmts) lbl =
      (let targets := (ZIPExtractor.validate_zip_file fs zp).image_files.filter
          (fun r => fmts.contains r.ext)
       if targets.isEmpty then ⟨false, some "ZIP文件中没有找到指定格式的图片", 0, []⟩
       else
         let ws := ZIPExtractor.buildWrites lbl dir 0 targets
         ⟨true, none, ws.length, ws⟩) := by
  unfold ZIPExtractor.extract_images
  rw [hf]
  dsimp only
  rw [if_neg hsuf]
  simp [hv]

theorem validate_mem_invalid (fs : FS) (paths : List String) (p : String)
    (hp : p ∈ paths) (hbad : FileUtils.is_valid_comic_file fs p = false) :
    (p, "不是有效的漫画文件（CBZ或ZIP）") ∈
      (CBZMerger.validate_comic_files fs paths).invalid_files := by
  induction paths with
  | nil => cases hp
  | cons q rest ih =>
    unfold CBZMerger.validate_comic_files
    rcases List.mem_cons.mp hp with rfl | hmem
    · rw [hbad]
      simp only [Bool.not_false, if_true]
      exact List.mem_cons_self _ _
    · cases hq : FileUtils.is_valid_comic_file fs q with
      | false =>
        simp only [hq, Bool.not_false, if_true]
        exact List.mem_cons_of_mem _ (ih hmem)
      | true =>
        simp only [hq, Bool.not_true, Bool.false_eq_true, if_false]
        cases hx : FileUtils.extract_comic_info fs q with
        | error e => exact List.mem_cons_of_mem _ (ih hmem)
        | ok info => exact ih hmem

theorem splitOnChar_ne_nil (ch : Char) (s : List Char) : splitOnChar ch s ≠ [] := by
  cases s with
  | nil => simp [splitOnChar]
  | cons a as =>
    unfold splitOnChar
    cases h : splitOnChar ch as with
    | nil => simp
    | cons x xs => by_cases hc : a = ch <;> simp [hc]

theorem splitOnChar_head_decomp (ch : Char) (s : List Char) :
    ∀ h t, splitOnChar ch s = h :: t → ∃ r, s = h ++ r := by
  induction s with
  | nil =>
    intro h t he
    unfold splitOnChar at he
    cases he
    exact ⟨[], rfl⟩
  | cons a as ih =>
    intro h t he
    unfold splitOnChar at he
    rcases hs : splitOnChar ch as with _ | ⟨x, xs⟩
    · exact absurd hs (splitOnChar_ne_nil ch as)
    · rw [hs] at he
      dsimp only at he
      by_cases hc : a = ch
      · rw [if_pos hc] at he
        cases he
        exact ⟨a :: as, rfl⟩
      · rw [if_neg hc] at he
        obtain ⟨r, hr⟩ := ih x xs hs
        cases he
        exact ⟨r, by rw [List.cons_append, ← hr]⟩

theorem splitOnChar_mem_decomp (ch : Char) (s : List Char) (seg : List Char) :
    seg ∈ splitOnChar ch s → ∃ l r, s = l ++ (seg ++ r) := by
  induction s with
  | nil =>
    intro hm
    unfold splitOnChar at hm
    rcases List.mem_singleton.mp hm with rfl
    exact ⟨[], [], rfl⟩
  | cons a as ih =>
    intro hm
    unfold splitOnChar at hm
    rcases hs : splitOnChar ch as with _ | ⟨x, xs⟩
    · exact absurd hs (splitOnChar_ne_nil ch as)
    · rw [hs] at hm
      dsimp only at hm
      by_cases hc : a = ch
      · rw [if_pos hc] at hm
        rcases List.mem_cons.mp hm with rfl | hm2
        · exact ⟨[], a :: as, rfl⟩
        · obtain ⟨l, r, hr⟩ := ih (hs ▸ hm2)
          exact ⟨a :: l, r, by rw [hr, List.cons_append]⟩
      · rw [if_neg hc] at hm
        rcases List.mem_cons.mp hm with rfl | hm2
        · obtain ⟨r, hr⟩ := splitOnChar_head_decomp ch as x xs hs
          exact ⟨[], r, by rw [hr, List.nil_append, List.cons_append]⟩
        · obtain ⟨l, r, hr⟩ := ih (hs ▸ List.mem_cons_of_mem x hm2)
          exact ⟨a :: l, r, by rw [hr, List.cons_append]⟩

theorem containsSub_of_decomp (l seg r : List Char) :
    containsSub (l ++ (seg ++ r)) seg = true := by
  induction l with
  | nil =>
    have hbw : beginsWith seg (seg ++ r) = true := by
      unfold beginsWith
      rw [List.take_left]
      simp
    unfold containsSub
    rw [List.nil_append, hbw]
    simp
  | cons a l2 ih =>
    unfold containsSub
    simp only [List.cons_append]
    rw [ih]
    simp

theorem scanKeep_false_of_bad (e : ZipEntry)
    (hbad : hasDotDotSegment e.name = true ∨ beginsWith ['/'] e.name.data = true) :
    ZIPExtractor.scanKeep e = false := by
  rcases hbad with hdd | hsl
  · have hmem : ['.', '.'] ∈ splitOnChar '/' e.name.data := of_decide_eq_true hdd
    obtain ⟨l, r, hr⟩ := splitOnChar_mem_decomp '/' e.name.data _ hmem
    have hcon : containsSub e.name.data ['.', '.'] = true := by
      rw [hr]
      exact containsSub_of_decomp l _ r
    simp [ZIPExtractor.scanKeep, hcon]
  · simp [ZIPExtractor.scanKeep, hsl]

theorem validate_zip_of_corrupt (fs : FS) (zp : String) (bytes : List Nat)
    (hf : fs.file? zp = some (.corrupt bytes)) (hsuf : ¬ suffixLower zp ≠ ".zip") :
    ZIPExtractor.validate_zip_file fs zp = ⟨false, some "ZIP文件损坏或格式无效", [], 0⟩ := by
  unfold ZIPExtractor.validate_zip_file
  rw [hf]
  dsimp only
  rw [if_neg hsuf]

theorem validate_zip_of_archive (fs : FS) (zp : String) (es : List ZipEntry)
    (hf : fs.file? zp = some (.archive es)) (hsuf : ¬ suffixLower zp ≠ ".zip") :
    ZIPExtractor.validate_zip_file fs zp =
      (let imgs := (es.filter ZIPExtractor.scanKeep).map
          (fun e => ZIPExtractor.ZipScanRec.mk e.name (extNoDot e.name) e.fileSize e.data)
       if imgs.any (fun r => (natKeyOfName r.name.data).isNone) then
         ⟨false, some "验证ZIP文件时出错: ValueError", [], es.length⟩
       else
         let sortedImgs := sortS ZIPExtractor.nkLe imgs
         if sortedImgs.isEmpty then
           ⟨false, some "ZIP文件中未找到支持的图片文件 (JPG, JPEG, PNG, WEBP, GIF, BMP)",
            sortedImgs, es.length⟩
         else ⟨true, none, sortedImgs, es.length⟩) := by
  unfold ZIPExtractor.validate_zip_file
  rw [hf]
  dsimp only
  rw [if_neg hsuf]

theorem validate_zip_mem_name (fs : FS) (zp : String) (r : ZIPExtractor.ZipScanRec)
    (hr : r ∈ (ZIPExtractor.validate_zip_file fs zp).image_files) :
    ∃ e, ZIPExtractor.scanKeep e = true ∧ r.name = e.name := by
  rcases hf : fs.file? zp with _ | node
  · rw [validate_zip_of_none fs zp hf] at hr
    cases hr
  · by_cases hsuf : suffixLower zp ≠ ".zip"
    · rw [validate_zip_of_suffix fs zp node hf hsuf] at hr
      cases hr
    · cases node with
      | corrupt bytes =>
        rw [validate_zip_of_corrupt fs zp bytes hf hsuf] at hr
        cases hr
      | archive es =>
        rw [validate_zip_of_archive fs zp es hf hsuf] at hr
        dsimp only at hr
        split at hr
        · cases hr
        · split at hr <;>
          · dsimp only at hr
            rw [mem_sortS] at hr
            obtain ⟨e, he, heq⟩ := List.mem_map.mp hr
            refine ⟨e, (List.mem_filter.mp he).2, ?_⟩
            rw [← heq]

theorem extract_none_formats (fs : FS) (zp dir lbl : String) (node : FileNode)
    (hf : fs.file? zp = some node) (hsuf : ¬ suffixLower zp ≠ ".zip")
    (hv : (ZIPExtractor.validate_zip_file fs zp).valid = true) :
    ZIPExtractor.extract_images fs zp dir none lbl =
      ⟨false, some "提取图片时出错: argument of type 'NoneType' is not iterable", 0, []⟩ := by
  unfold ZIPExtractor.extract_images
  rw [hf]
  dsimp only
  rw [if_neg hsuf]
  simp [hv]

theorem extract_writes_sub (fs : FS) (zp dir : String) (f : Option (List String))
    (lbl : String) (w : ZIPExtractor.ExtractWrite)
    (hw : w ∈ (ZIPExtractor.extract_images fs zp dir f lbl).writes) :
    ∃ r ∈ (ZIPExtractor.validate_zip_file fs zp).image_files,
      w.srcName = r.name ∧ w.path = dir ++ "/" ++ w.fileName := by
  rcases hf : fs.file? zp with _ | node
  · rw [extract_of_none fs zp dir f lbl hf] at hw
    cases hw
  · by_cases hsuf : suffixLower zp ≠ ".zip"
    · rw [extract_of_suffix fs zp dir f lbl node hf hsuf] at hw
      cases hw
    · cases hv : (ZIPExtractor.validate_zip_file fs zp).valid with
      | false =>
        rw [extract_of_invalid fs zp dir f lbl node hf hsuf hv] at hw
        cases hw
      | true =>
        cases f with
        | none =>
          rw [extract_none_formats fs zp dir lbl node hf hsuf hv] at hw
          cases hw
        | some fmts =>
          rw [extract_of_valid fs zp dir fmts lbl node hf hsuf hv] at hw
          dsimp only at hw
          split at hw
          · cases hw
          · obtain ⟨r2, hr2, hsrc, hpath⟩ := buildWrites_mem lbl dir _ w 0 hw
            exact ⟨r2, (List.mem_filter.mp hr2).1, hsrc, hpath⟩

/-- Claim C7: any ZIP entry whose name contains a `..` path segment or
begins with `/` is excluded from the image-entry scan entirely — it never
appears in the scanned image list of `validate_zip_file`, and during
`extract_images` no file is ever written from it (every write comes from a
scanned entry and lands at `outputDir/chapterLabel_NNN.ext`). -/
theorem claim_C7_traversal (fs : FS) (p dir : String) (fmts : Option (List String))
    (lbl : String) (es : List ZipEntry) (e : ZipEntry)
    (_hfs : fs.file? p = some (.archive es)) (_he : e ∈ es)
    (hbad : hasDotDotSegment e.name = true ∨ beginsWith ['/'] e.name.data = true) :
    (∀ r ∈ (ZIPExtractor.validate_zip_file fs p).image_files, r.name ≠ e.name) ∧
    (∀ w ∈ (ZIPExtractor.extract_images fs p dir fmts lbl).writes,
      w.srcName ≠ e.name ∧ w.path = dir ++ "/" ++ w.fileName) := by
  have hscan := scanKeep_false_of_bad e hbad
  have part1 : ∀ r ∈ (ZIPExtractor.validate_zip_file fs p).image_files, r.name ≠ e.name := by
    intro r hr hname
    obtain ⟨e2, hk2, hn2⟩ := validate_zip_mem_name fs p r hr
    have hEq : e2.name = e.name := by rw [← hn2]; exact hname
    have : ZIPExtractor.scanKeep e2 = false :=
      scanKeep_false_of_bad e2 (by rw [hEq]; exact hbad)
    rw [hk2] at this
    cases this
  refine ⟨part1, fun w hw => ?_⟩
  obtain ⟨r2, hr2, hsrc, hpath⟩ := extract_writes_sub fs p dir fmts lbl w hw
  refine ⟨?_, hpath⟩
  rw [hsrc]
  exact part1 r2 hr2

/-- Claim C7, witness at a concrete input: a ZIP containing
`../../evil.jpg` never lists it among scanned images nor writes from it. -/
theorem claim_C7_traversal_witness :
    (∀ r ∈ (ZIPExtractor.validate_zip_file
        ⟨[("t.zip", .archive [⟨"../../evil.jpg", 1, 1, some []⟩, ⟨"ok.jpg", 1, 1, some [1]⟩])],
         [], []⟩ "t.zip").image_files,
      r.name ≠ ZipEntry.name ⟨"../../evil.jpg", 1, 1, some []⟩) ∧
    (∀ w ∈ (ZIPExtractor.extract_images
        ⟨[("t.zip", .archive [⟨"../../evil.jpg", 1, 1, some []⟩, ⟨"ok.jpg", 1, 1, some [1]⟩])],
         [], []⟩ "t.zip" "/o" (some ["jpg"]) "ch1").writes,
      w.srcName ≠ ZipEntry.name ⟨"../../evil.jpg", 1, 1, some []⟩ ∧
      w.path = "/o" ++ "/" ++ w.fileName) :=
  claim_C7_traversal
    ⟨[("t.zip", .archive [⟨"../../evil.jpg", 1, 1, some []⟩, ⟨"ok.jpg", 1, 1, some [1]⟩])], [], []⟩
    "t.zip" "/o" (some ["jpg"]) "ch1"
    [⟨"../../evil.jpg", 1, 1, some []⟩, ⟨"ok.jpg", 1, 1, some [1]⟩]
    ⟨"../../evil.jpg", 1, 1, some []⟩ rfl (by decide) (by left; decide)

theorem getLast?_cons_ex {α : Type} (x : α) (xs : List α) :
    ∃ y, (x :: xs).getLast? = some y := by
  induction xs generalizing x with
  | nil => exact ⟨x, rfl⟩
  | cons z zs ih =>
    rw [List.getLast?_cons_cons]
    exact ih z

theorem splitRuns_inv (s : List Char) : SplitInv (splitRuns s) := by
  induction s with
  | nil => trivial
  | cons c cs ih =>
    unfold splitRuns
    cases h : splitRuns cs with
    | nil =>
      refine ⟨by simp, ?_, ?_, trivial⟩
      · intro x hx
        rcases List.mem_singleton.mp hx with rfl
        rfl
      · intro r2 hr2
        cases hr2
    | cons r rs =>
      rw [h] at ih
      cases r with
      | nil => exact absurd rfl ih.1
      | cons d r2 =>
        obtain ⟨-, hhom, hhead, hrest⟩ := ih
        dsimp only
        by_cases hc : reDigit c = reDigit d
        · rw [if_pos hc]
          refine ⟨by simp, ?_, ?_, hrest⟩
          · intro x hx
            rcases List.mem_cons.mp hx with rfl | hx2
            · rfl
            · have := hhom x hx2
              show reDigit x = reDigit c
              rw [this, hc]
              rfl
          · intro r3 hr3
            have := hhead r3 hr3
            show isDigitRun r3 = !reDigit c
            rw [this, hc]
            rfl
        · rw [if_neg hc]
          refine ⟨by simp, ?_, ?_, ⟨by simp, hhom, hhead, hrest⟩⟩
          · intro x hx
            rcases List.mem_singleton.mp hx with rfl
            rfl
          · intro r3 hr3
            cases hr3
            show reDigit d = !reDigit c
            cases hA : reDigit c <;> cases hB : reDigit d <;> simp_all

theorem piecesAlt_of_inv (runs : List (List Char)) :
    SplitInv runs → ∀ b, (∀ r ∈ runs.head?, isDigitRun r = b) → PiecesAlt b runs := by
  induction runs with
  | nil =>
    intro _ b _
    cases b <;> trivial
  | cons r rs ih =>
    intro hinv b hb
    obtain ⟨hne, hhom, hhead, hrest⟩ := hinv
    have hbr : isDigitRun r = b := hb r rfl
    have hbnext : ∀ r2 ∈ rs.head?, isDigitRun r2 = !b := by
      intro r2 hr2
      have := hhead r2 hr2
      rw [hbr] at this
      exact this
    cases b
    · show (∀ c ∈ r, reDigit c = false) ∧ PiecesAlt true rs
      refine ⟨fun c hc => ?_, ih hrest true (by simpa using hbnext)⟩
      rw [hhom c hc, hbr]
    · show r ≠ [] ∧ (∀ c ∈ r, reDigit c = true) ∧ PiecesAlt false rs
      refine ⟨hne, fun c hc => ?_, ih hrest false (by simpa using hbnext)⟩
      rw [hhom c hc, hbr]

theorem piecesAlt_pad (l : List (List Char)) :
    ∀ b, PiecesAlt b l → (∀ r ∈ l.getLast?, isDigitRun r = true) → l ≠ [] →
      PiecesAlt b (l ++ [[]]) := by
  induction l with
  | nil => intro b _ _ hne; exact absurd rfl hne
  | cons x rest ih =>
    intro b halt hlast _
    cases rest with
    | nil =>
      have hx : isDigitRun x = true := hlast x rfl
      cases b
      · obtain ⟨htext, -⟩ := halt
        cases x with
        | nil => cases hx
        | cons c x2 =>
          have h1 := htext c (List.mem_cons_self c x2)
          have h2 : reDigit c = true := hx
          rw [h1] at h2
          cases h2
      · obtain ⟨hne2, hdig, -⟩ := halt
        exact ⟨hne2, hdig, fun c hc => absurd hc (List.not_mem_nil c), trivial⟩
    | cons y rest2 =>
      have hlast2 : ∀ r ∈ (y :: rest2).getLast?, isDigitRun r = true := by
        intro r hr
        apply hlast
        rw [List.getLast?_cons_cons]
        exact hr
      cases b
      · obtain ⟨htext, halt2⟩ := halt
        exact ⟨htext, ih true halt2 hlast2 (by simp)⟩
      · obtain ⟨hne2, hdig, halt2⟩ := halt
        exact ⟨hne2, hdig, ih false halt2 hlast2 (by simp)⟩

theorem piecesAlt_reSplit (s : List Char) : PiecesAlt false (reSplitDigits s) := by
  unfold reSplitDigits
  cases h : splitRuns s with
  | nil => exact ⟨fun c hc => absurd hc (List.not_mem_nil c), trivial⟩
  | cons r rs =>
    have hinv := splitRuns_inv s
    rw [h] at hinv
    dsimp only
    obtain ⟨y, hy⟩ := getLast?_cons_ex r rs
    have hbase : PiecesAlt false (if isDigitRun r then [] :: r :: rs else r :: rs) := by
      by_cases hd : isDigitRun r = true
      · rw [if_pos hd]
        exact ⟨fun c hc => absurd hc (List.not_mem_nil c),
          piecesAlt_of_inv (r :: rs) hinv true (by intro r2 hr2; cases hr2; exact hd)⟩
      · rw [if_neg (by simpa using hd)]
        apply piecesAlt_of_inv (r :: rs) hinv false
        intro r2 hr2
        cases hr2
        simpa using hd
    by_cases hl : isDigitRun (((r :: rs).getLast?).getD []) = true
    · rw [if_pos hl]
      apply piecesAlt_pad _ false hbase
      · intro r2 hr2
        have hsame : (if isDigitRun r then [] :: r :: rs else r :: rs).getLast? = some y := by
          by_cases hd : isDigitRun r = true
        -- prepending the empty text piece does not change the last element
          · rw [if_pos hd, List.getLast?_cons_cons, hy]
          · rw [if_neg (by simpa using hd), hy]
        rw [hsame] at hr2
        cases hr2
        rw [hy] at hl
        exact hl
      · by_cases hd : isDigitRun r = true
        · rw [if_pos hd]; simp
        · rw [if_neg (by simpa using hd)]; simp
    · rw [if_neg hl]
      exact hbase

theorem cmpKey_total (k1 : List SKey) :
    ∀ (k2 : List SKey) (b : Bool), keyAltOk b k1 = true → keyAltOk b k2 = true →
      (cmpKey k1 k2).isSome = true := by
  induction k1 with
  | nil =>
    intro k2 b _ _
    cases k2 <;> rfl
  | cons a as ih =>
    intro k2 b h1 h2
    cases k2 with
    | nil => rfl
    | cons c cs =>
      cases b
      · cases a with
        | int n => cases h1
        | str x =>
          cases c with
          | int m => cases h2
          | str y =>
            unfold cmpKey
            by_cases he : SKey.str x = SKey.str y
            · rw [if_pos he]
              exact ih cs true h1 h2
            · rw [if_neg he]
              show ((match cmpPiece (SKey.str x) (SKey.str y) with
                | none => none
                | some Ordering.eq => cmpKey as cs
                | some o => some o)).isSome = true
              dsimp only [cmpPiece]
              cases h3 : cmpChars x y
              · rfl
              · exact ih cs true h1 h2
              · rfl
      · cases a with
        | str x => cases h1
        | int n =>
          cases c with
          | str y => cases h2
          | int m =>
            unfold cmpKey
            by_cases he : SKey.int n = SKey.int m
            · rw [if_pos he]
              exact ih cs false h1 h2
            · rw [if_neg he]
              show ((match cmpPiece (SKey.int n) (SKey.int m) with
                | none => none
                | some Ordering.eq => cmpKey as cs
                | some o => some o)).isSome = true
              dsimp only [cmpPiece]
              cases h3 : compare n m
              · rfl
              · exact ih cs false h1 h2
              · rfl

theorem splitRuns_chars (s : List Char) :
    ∀ r ∈ splitRuns s, ∀ c ∈ r, c ∈ s := by
  induction s with
  | nil => intro r hr; cases hr
  | cons a as ih =>
    unfold splitRuns
    cases h : splitRuns as with
    | nil =>
      intro r hr c hc
      rcases List.mem_singleton.mp hr with rfl
      rcases List.mem_singleton.mp hc with rfl
      exact List.mem_cons_self _ _
    | cons x xs =>
      cases x with
      | nil =>
        intro r hr c hc
        rcases List.mem_cons.mp hr with rfl | hr2
        · rcases List.mem_singleton.mp hc with rfl
          exact List.mem_cons_self _ _
        · rcases List.mem_cons.mp hr2 with rfl | hr3
          · cases hc
          · have hmem : r ∈ splitRuns as := by
              rw [h]
              exact List.mem_cons_of_mem _ hr3
            exact List.mem_cons_of_mem a (ih r hmem c hc)
      | cons d r2 =>
        dsimp only
        by_cases hcd : reDigit a = reDigit d
        · rw [if_pos hcd]
          intro r hr c hc
          rcases List.mem_cons.mp hr with rfl | hr2
          · rcases List.mem_cons.mp hc with rfl | hc2
            · exact List.mem_cons_self _ _
            · have hmem : (d :: r2) ∈ splitRuns as := by
                rw [h]
                exact List.mem_cons_self _ _
              exact List.mem_cons_of_mem a (ih _ hmem c hc2)
          · have hmem : r ∈ splitRuns as := by
              rw [h]
              exact List.mem_cons_of_mem _ hr2
            exact List.mem_cons_of_mem a (ih r hmem c hc)
        · rw [if_neg hcd]
          intro r hr c hc
          rcases List.mem_cons.mp hr with rfl | hr2
          · rcases List.mem_singleton.mp hc with rfl
            exact List.mem_cons_self _ _
          · have hmem : r ∈ splitRuns as := by
              rw [h]
              exact hr2
            exact List.mem_cons_of_mem a (ih r hmem c hc)

theorem reSplit_chars (s : List Char) :
    ∀ t ∈ reSplitDigits s, ∀ c ∈ t, c ∈ s := by
  unfold reSplitDigits
  cases h : splitRuns s with
  | nil =>
    intro t ht c hc
    rcases List.mem_singleton.mp ht with rfl
    cases hc
  | cons r rs =>
    dsimp only
    intro t ht c hc
    have hruns : ∀ t2 ∈ r :: rs, ∀ c2 ∈ t2, c2 ∈ s := by
      intro t2 ht2
      apply splitRuns_chars s
      rw [h]
      exact ht2
    have hbase : ∀ u, u ∈ (if isDigitRun r then [] :: r :: rs else r :: rs) →
        u = [] ∨ u ∈ r :: rs := by
      intro u hu
      by_cases hd : isDigitRun r = true
      · rw [if_pos hd] at hu
        rcases List.mem_cons.mp hu with rfl | hu2
        · exact Or.inl rfl
        · exact Or.inr hu2
      · rw [if_neg (by simpa using hd)] at hu
        exact Or.inr hu
    have ht2 : t = [] ∨ t ∈ r :: rs := by
      by_cases hl : isDigitRun ((r :: rs).getLast?.getD []) = true
      · rw [if_pos hl] at ht
        rcases List.mem_append.mp ht with h1 | h2
        · exact hbase t h1
        · rcases List.mem_singleton.mp h2 with rfl
          exact Or.inl rfl
      · rw [if_neg hl] at ht
        exact hbase t ht
    rcases ht2 with rfl | hmem
    · cases hc
    · exact hruns t hmem c hc

theorem mem_of_getLast? {α : Type} : ∀ (l : List α) (a : α), l.getLast? = some a → a ∈ l := by
  intro l
  induction l with
  | nil => intro a h; cases h
  | cons x xs ih =>
    intro a h
    cases xs with
    | nil =>
      cases h
      exact List.mem_cons_self _ _
    | cons y ys =>
      rw [List.getLast?_cons_cons] at h
      exact List.mem_cons_of_mem x (ih a h)

theorem leafName_chars (s : List Char) (c : Char) (hc : c ∈ leafName s) : c ∈ s := by
  unfold leafName at hc
  cases hgl : (splitOnChar '/' s).getLast? with
  | none =>
    rw [hgl] at hc
    simpa using hc
  | some seg =>
    rw [hgl] at hc
    simp only [Option.getD_some] at hc
    have hmem : seg ∈ splitOnChar '/' s := mem_of_getLast? _ seg hgl
    obtain ⟨l, r, hr⟩ := splitOnChar_mem_decomp '/' s seg hmem
    rw [hr]
    exact List.mem_append.mpr (Or.inr (List.mem_append.mpr (Or.inl hc)))

theorem mapM_pieceKey_alt (pieces : List (List Char)) :
    ∀ b, PiecesAlt b pieces →
      (∀ t ∈ pieces, ∀ c ∈ t, pyIsDigitChar c = true → reDigit c = true) →
      ∃ key, pieces.mapM pieceKey = some key ∧ keyAltOk b key = true := by
  induction pieces with
  | nil =>
    intro b _ _
    cases b <;> exact ⟨[], rfl, rfl⟩
  | cons t rest ih =>
    intro b halt hchars
    have hrest := fun t2 ht2 => hchars t2 (List.mem_cons_of_mem t ht2)
    cases b
    · obtain ⟨htext, halt2⟩ := halt
      have hpk : pieceKey t = some (SKey.str (t.map lowerChar)) := by
        unfold pieceKey
        have hsd : pyStrIsDigit t = false := by
          cases t with
          | nil => rfl
          | cons c0 t2 =>
            unfold pyStrIsDigit
            cases hpd : pyIsDigitChar c0 with
            | false => simp [hpd]
            | true =>
              have := hchars (c0 :: t2) (List.mem_cons_self _ _) c0 (List.mem_cons_self _ _) hpd
              rw [htext c0 (List.mem_cons_self _ _)] at this
              cases this
        rw [hsd]
        simp
      obtain ⟨key2, hk2, ha2⟩ := ih true halt2 hrest
      refine ⟨SKey.str (t.map lowerChar) :: key2, ?_, ha2⟩
      rw [List.mapM_cons, hpk, hk2]
      rfl
    · obtain ⟨hne, hdig, halt2⟩ := halt
      have hpk : pieceKey t = some (SKey.int (digitsVal t 0)) := by
        unfold pieceKey
        have h1 : pyStrIsDigit t = true := by
          cases t with
          | nil => exact absurd rfl hne
          | cons c0 t2 =>
            unfold pyStrIsDigit
            simp only [List.isEmpty_cons, Bool.not_false, Bool.true_and]
            rw [List.all_eq_true]
            intro x hx
            have hd := hdig x hx
            unfold reDigit at hd
            unfold pyIsDigitChar
            rw [hd]
            rfl
        have h2 : pyInt t = some (digitsVal t 0) := by
          unfold pyInt
          have hcond : (!t.isEmpty && t.all reDigit) = true := by
            cases t with
            | nil => exact absurd rfl hne
            | cons c0 t2 =>
              simp only [List.isEmpty_cons, Bool.not_false, Bool.true_and]
              rw [List.all_eq_true]
              exact fun x hx => hdig x hx
          rw [if_pos hcond]
        rw [h1, h2]
        rfl
      obtain ⟨key2, hk2, ha2⟩ := ih false halt2 hrest
      refine ⟨SKey.int (digitsVal t 0) :: key2, ?_, ha2⟩
      rw [List.mapM_cons, hpk, hk2]
      rfl

theorem digitChar_ne (d : Nat) (hd : d < 10) :
    ZIPExtractor.digitChar d ≠ '.' ∧ ZIPExtractor.digitChar d ≠ '/' := by
  interval_cases d <;> exact ⟨by decide, by decide⟩

theorem natDigitsFuel_chars (fuel : Nat) :
    ∀ n c, c ∈ ZIPExtractor.natDigitsFuel fuel n → c ≠ '.' ∧ c ≠ '/' := by
  induction fuel with
  | zero => intro n c hc; cases hc
  | succ f ih =>
    intro n c hc
    unfold ZIPExtractor.natDigitsFuel at hc
    by_cases hn : n = 0
    · rw [if_pos hn] at hc
      cases hc
    · rw [if_neg hn] at hc
      rcases List.mem_append.mp hc with h1 | h2
      · exact ih (n / 10) c h1
      · rcases List.mem_singleton.mp h2 with rfl
        exact digitChar_ne (n % 10) (Nat.mod_lt n (by norm_num))

theorem natDigits_chars (n : Nat) (c : Char) (hc : c ∈ ZIPExtractor.natDigits n) :
    c ≠ '.' ∧ c ≠ '/' := by
  unfold ZIPExtractor.natDigits at hc
  by_cases hn : n = 0
  · rw [if_pos hn] at hc
    rcases List.mem_singleton.mp hc with rfl
    exact ⟨by decide, by decide⟩
  · rw [if_neg hn] at hc
    exact natDigitsFuel_chars (n + 1) n c hc

theorem natDigits_ne_nil (n : Nat) : ZIPExtractor.natDigits n ≠ [] := by
  unfold ZIPExtractor.natDigits
  by_cases hn : n = 0
  · rw [if_pos hn]
    simp
  · rw [if_neg hn]
    unfold ZIPExtractor.natDigitsFuel
    rw [if_neg hn]
    simp

theorem padNum_chars (w n : Nat) (c : Char) (hc : c ∈ (ZIPExtractor.padNum w n).data) :
    c ≠ '.' ∧ c ≠ '/' := by
  rcases List.mem_append.mp hc with h1 | h2
  · rcases List.eq_of_mem_replicate h1 with rfl
    exact ⟨by decide, by decide⟩
  · exact natDigits_chars n c h2

theorem padNum_data_ne_nil (w n : Nat) : (ZIPExtractor.padNum w n).data ≠ [] := by
  intro h
  rcases List.append_eq_nil.mp h with ⟨-, h2⟩
  exact natDigits_ne_nil n h2

theorem lookup_val_mem {α β : Type} [BEq α] (l : List (α × β)) :
    ∀ (a : α) (b : β), l.lookup a = some b → b ∈ l.map Prod.snd := by
  induction l with
  | nil => intro a b h; cases h
  | cons kv rest ih =>
    intro a b h
    rw [List.lookup_cons] at h
    cases he : a == kv.1 with
    | true =>
      rw [he] at h
      dsimp only at h
      cases h
      exact List.mem_cons_self _ _
    | false =>
      rw [he] at h
      dsimp only at h
      exact List.mem_cons_of_mem _ (ih a b h)

theorem lowerChar_eq_dot (c : Char) (h : lowerChar c = '.') : c = '.' := by
  unfold lowerChar at h
  cases hl : upperLowerTable.lookup c with
  | none =>
    rw [hl] at h
    simpa using h
  | some d =>
    rw [hl] at h
    simp only [Option.getD_some] at h
    have hmem : d ∈ upperLowerTable.map Prod.snd := lookup_val_mem _ c d hl
    rw [h] at hmem
    exact absurd hmem (by decide)

theorem ne_of_lower_ne (c : Char) (x : Char) (hx : lowerChar x = x)
    (h : lowerChar c ≠ x) : c ≠ x := by
  intro hc
  rw [hc] at h
  exact h hx

theorem map_lower_cons (s : List Char) (d : Char) (ds : List Char)
    (h : s.map lowerChar = d :: ds) :
    ∃ c cs, s = c :: cs ∧ lowerChar c = d ∧ cs.map lowerChar = ds := by
  cases s with
  | nil => cases h
  | cons c cs =>
    rw [List.map_cons] at h
    injection h with h1 h2
    exact ⟨c, cs, rfl, h1, h2⟩

theorem splitOnChar_eq_self (ch : Char) (l : List Char) (h : ∀ c ∈ l, c ≠ ch) :
    splitOnChar ch l = [l] := by
  induction l with
  | nil => rfl
  | cons a as ih =>
    unfold splitOnChar
    rw [ih (fun c hc => h c (List.mem_cons_of_mem a hc))]
    dsimp only
    rw [if_neg (h a (List.mem_cons_self a as))]

theorem lastDotIdx_none (l : List Char) (h : ∀ c ∈ l, c ≠ '.') :
    lastDotIdx l = none := by
  induction l with
  | nil => rfl
  | cons a as ih =>
    unfold lastDotIdx
    rw [ih (fun c hc => h c (List.mem_cons_of_mem a hc))]
    dsimp only
    rw [if_neg (h a (List.mem_cons_self a as))]

theorem lastDotIdx_append (A s2 : List Char) (hA : ∀ c ∈ A, c ≠ '.')
    (hs2 : ∀ c ∈ s2, c ≠ '.') :
    lastDotIdx (A ++ '.' :: s2) = some A.length := by
  induction A with
  | nil =>
    rw [List.nil_append]
    unfold lastDotIdx
    rw [lastDotIdx_none s2 hs2]
    rw [if_pos rfl]
    rfl
  | cons a A2 ih =>
    rw [List.cons_append]
    unfold lastDotIdx
    rw [ih (fun c hc => hA c (List.mem_cons_of_mem a hc))]
    rfl

theorem suffixLower_pad_append (k : Nat) (s rest : List Char)
    (hmap : s.map lowerChar = '.' :: rest)
    (hrne : rest ≠ [])
    (hrest : ∀ y ∈ rest, y ≠ '.' ∧ y ≠ '/') :
    suffixLower (ZIPExtractor.padNum 4 k ++ String.mk s) = String.mk ('.' :: rest) := by
  obtain ⟨c0, s2, rfl, hc0, hs2⟩ := map_lower_cons s '.' rest hmap
  have hc0d : c0 = '.' := lowerChar_eq_dot c0 hc0
  subst hc0d
  have hs2facts : ∀ x ∈ s2, x ≠ '.' ∧ x ≠ '/' := by
    intro x hx
    have hlx : lowerChar x ∈ rest := by
      rw [← hs2]
      exact List.mem_map_of_mem lowerChar hx
    obtain ⟨hd, hs⟩ := hrest (lowerChar x) hlx
    exact ⟨ne_of_lower_ne x '.' (by decide) hd, ne_of_lower_ne x '/' (by decide) hs⟩
  have hdata : (ZIPExtractor.padNum 4 k ++ String.mk ('.' :: s2)).data =
      (ZIPExtractor.padNum 4 k).data ++ '.' :: s2 := by
    rw [String.data_append]
  have hnoslash : ∀ c ∈ (ZIPExtractor.padNum 4 k).data ++ '.' :: s2, c ≠ '/' := by
    intro c hc
    rcases List.mem_append.mp hc with h1 | h2
    · exact (padNum_chars 4 k c h1).2
    · rcases List.mem_cons.mp h2 with rfl | h3
      · decide
      · exact (hs2facts c h3).2
  have hleaf : pathLeaf ((ZIPExtractor.padNum 4 k).data ++ '.' :: s2) =
      (ZIPExtractor.padNum 4 k).data ++ '.' :: s2 := by
    unfold pathLeaf leafName
    rw [splitOnChar_eq_self '/' _ hnoslash]
    rfl
  have hdot : lastDotIdx ((ZIPExtractor.padNum 4 k).data ++ '.' :: s2) =
      some (ZIPExtractor.padNum 4 k).data.length :=
    lastDotIdx_append _ s2 (fun c hc => (padNum_chars 4 k c hc).1)
      (fun c hc => (hs2facts c hc).1)
  have hplen : 0 < (ZIPExtractor.padNum 4 k).data.length := by
    cases hp : (ZIPExtractor.padNum 4 k).data with
    | nil => exact absurd hp (padNum_data_ne_nil 4 k)
    | cons x xs => simp
  have hs2len : 0 < s2.length := by
    cases s2 with
    | nil =>
      rw [List.map_nil] at hs2
      exact absurd hs2.symm hrne
    | cons y ys => simp
  have hcond : 0 < (ZIPExtractor.padNum 4 k).data.length ∧
      (ZIPExtractor.padNum 4 k).data.length + 1 <
        ((ZIPExtractor.padNum 4 k).data ++ '.' :: s2).length := by
    constructor
    · exact hplen
    · rw [List.length_append, List.length_cons]
      omega
  unfold suffixLower
  rw [hdata]
  unfold pySuffix
  dsimp only
  rw [hleaf, hdot]
  dsimp only
  rw [if_pos hcond]
  rw [List.drop_left]
  rw [List.map_cons, hs2]
  rfl

theorem isImageFile_pad (k : Nat) (nm : String) (h : CBZMerger.isImageFile nm = true) :
    CBZMerger.isImageFile (ZIPExtractor.padNum 4 k ++ String.mk (pySuffix nm.data)) = true := by
  have hmem : suffixLower nm ∈ imageSuffixes := by
    unfold CBZMerger.isImageFile at h
    exact List.mem_of_elem_eq_true h
  have hdata : ∀ t : String, suffixLower nm = t →
      (pySuffix nm.data).map lowerChar = t.data :=
    fun t ht => congrArg String.data ht
  unfold CBZMerger.isImageFile
  simp only [imageSuffixes, List.mem_cons, List.not_mem_nil, or_false] at hmem
  rcases hmem with h1 | h1 | h1 | h1 | h1 | h1
  · rw [suffixLower_pad_append k _ ['j', 'p', 'g']
      (by rw [hdata ".jpg" h1]) (by decide) (by decide)]
    decide
  · rw [suffixLower_pad_append k _ ['j', 'p', 'e', 'g']
      (by rw [hdata ".jpeg" h1]) (by decide) (by decide)]
    decide
  · rw [suffixLower_pad_append k _ ['p', 'n', 'g']
      (by rw [hdata ".png" h1]) (by decide) (by decide)]
    decide
  · rw [suffixLower_pad_append k _ ['w', 'e', 'b', 'p']
      (by rw [hdata ".webp" h1]) (by decide) (by decide)]
    decide
  · rw [suffixLower_pad_append k _ ['g', 'i', 'f']
      (by rw [hdata ".gif" h1]) (by decide) (by decide)]
    decide
  · rw [suffixLower_pad_append k _ ['b', 'm', 'p']
      (by rw [hdata ".bmp" h1]) (by decide) (by decide)]
    decide

theorem extract_ok_of_archive (fs : FS) (p : String) (es : List ZipEntry)
    (hf : fs.file? p = some (.archive es)) :
    FileUtils.extract_comic_info fs p = .ok
      ⟨String.mk (pathLeaf p.data), FileUtils.get_file_type fs p,
       (sortS strLe ((es.map (fun e => e.name)).filter FileUtils.imageNameFilter)).length,
       sortS strLe ((es.map (fun e => e.name)).filter FileUtils.imageNameFilter),
       (match es.find? (fun e => endsWith (lowerStr e.name).data "comicinfo.xml".data) with
        | none => none
        | some e => e.data),
       es.length⟩ := by
  unfold FileUtils.extract_comic_info
  rw [hf]

theorem cbzImages_eq (fs : FS) (p : String) (es : List ZipEntry)
    (hf : fs.file? p = some (.archive es)) :
    CBZMerger.cbzImages fs p =
      sortS strLe ((es.map (fun e => e.name)).filter FileUtils.imageNameFilter) := by
  unfold CBZMerger.cbzImages
  rw [extract_ok_of_archive fs p es hf]

theorem goodCbz_facts (fs : FS) (p : String) (h : CBZMerger.goodCbzInput fs p = true) :
    ∃ es, fs.file? p = some (.archive es) ∧ suffixLower p = ".cbz" ∧
      es.all (fun e => e.data.isSome) = true ∧
      (∀ n ∈ CBZMerger.cbzImages fs p, CBZMerger.cleanName n = true ∧
        CBZMerger.isImageFile n = true) := by
  unfold CBZMerger.goodCbzInput at h
  rcases hf : fs.file? p with _ | node
  · rw [hf] at h
    cases h
  · rw [hf] at h
    cases node with
    | corrupt bytes =>
      dsimp only at h
      cases h
    | archive es =>
      dsimp only at h
      simp only [Bool.and_eq_true] at h
      refine ⟨es, rfl, eq_of_beq h.1.1, h.1.2, ?_⟩
      intro n hn
      rw [cbzImages_eq fs p es hf, mem_sortS] at hn
      obtain ⟨hn2, hflt⟩ := List.mem_filter.mp hn
      obtain ⟨e, he, rfl⟩ := List.mem_map.mp hn2
      have hcond := (List.all_eq_true.mp h.2) e he
      simp only [hflt, Bool.not_true, Bool.false_or, Bool.and_eq_true] at hcond
      exact hcond

theorem validate_good (fs : FS) (paths : List String)
    (h : ∀ p ∈ paths, CBZMerger.goodCbzInput fs p = true) :
    (CBZMerger.validate_comic_files fs paths).invalid_files = [] := by
  induction paths with
  | nil => rfl
  | cons p rest ih =>
    obtain ⟨es, hf, hsuf, -, -⟩ := goodCbz_facts fs p (h p (List.mem_cons_self _ _))
    have hvalid : FileUtils.is_valid_comic_file fs p = true := by
      unfold FileUtils.is_valid_comic_file FileUtils.is_valid_cbz_file
      rw [hf]
      dsimp only
      rw [if_neg (fun hne => hne hsuf)]
      rfl
    unfold CBZMerger.validate_comic_files
    rw [hvalid]
    rw [extract_ok_of_archive fs p es hf]
    dsimp only
    exact ih (fun q hq => h q (List.mem_cons_of_mem _ hq))

theorem copyImages_clean (imgs : List String) :
    ∀ page, (∀ i ∈ imgs, CBZMerger.cleanName i = true) →
      CBZMerger.copyImages page imgs = (page + imgs.length, CBZMerger.numbered page imgs) := by
  induction imgs with
  | nil => intro page _; rfl
  | cons img rest ih =>
    intro page hclean
    unfold CBZMerger.copyImages
    rw [hclean img (List.mem_cons_self _ _), if_pos rfl]
    rw [ih (page + 1) (fun i hi => hclean i (List.mem_cons_of_mem _ hi))]
    have harith : page + 1 + rest.length = page + (img :: rest).length := by
      rw [List.length_cons]
      omega
    rw [harith]
    rfl

theorem numbered_length (l : List String) : ∀ k, (CBZMerger.numbered k l).length = l.length := by
  induction l with
  | nil => intro k; rfl
  | cons a l ih =>
    intro k
    unfold CBZMerger.numbered
    rw [List.length_cons, List.length_cons, ih (k + 1)]

theorem numbered_append (l1 : List String) :
    ∀ (l2 : List String) (k : Nat),
      CBZMerger.numbered k (l1 ++ l2) =
        CBZMerger.numbered k l1 ++ CBZMerger.numbered (k + l1.length) l2 := by
  induction l1 with
  | nil => intro l2 k; rfl
  | cons a l1 ih =>
    intro l2 k
    rw [List.cons_append]
    show (_ : String) :: CBZMerger.numbered (k + 1) (l1 ++ l2) = _
    rw [ih l2 (k + 1)]
    have harith : k + 1 + l1.length = k + (a :: l1).length := by
      rw [List.length_cons]
      omega
    rw [harith]
    rfl

theorem numbered_filter (imgs : List String) :
    ∀ k, (∀ i ∈ imgs, CBZMerger.isImageFile i = true) →
      (CBZMerger.numbered k imgs).filter CBZMerger.isImageFile =
        CBZMerger.numbered k imgs := by
  induction imgs with
  | nil => intro k _; rfl
  | cons img rest ih =>
    intro k hgood
    unfold CBZMerger.numbered
    rw [List.filter_cons]
    rw [isImageFile_pad k img (hgood img (List.mem_cons_self _ _)), if_pos rfl]
    rw [ih (k + 1) (fun i hi => hgood i (List.mem_cons_of_mem _ hi))]

theorem stepFile_good (fs : FS) (fmts : List String) (i : Nat) (p : String) (page : Nat)
    (h : CBZMerger.goodCbzInput fs p = true) :
    CBZMerger.stepFile fs fmts i p page =
      ⟨page + (CBZMerger.cbzImages fs p).length,
       CBZMerger.numbered page (CBZMerger.cbzImages fs p), [], 1,
       [CBZMerger.MergeEffect.extractArchive p]⟩ := by
  obtain ⟨es, hf, hsuf, hall, himgs⟩ := goodCbz_facts fs p h
  have hft : FileUtils.get_file_type fs p = "CBZ" := by
    unfold FileUtils.get_file_type
    dsimp only
    rw [if_pos hsuf]
  unfold CBZMerger.stepFile
  rw [hft, if_pos rfl, hf]
  dsimp only
  rw [hall, if_pos rfl]
  rw [extract_ok_of_archive fs p es hf]
  dsimp only
  rw [← cbzImages_eq fs p es hf]
  rw [copyImages_clean (CBZMerger.cbzImages fs p) page
    (fun n hn => (himgs n hn).1)]

theorem processFiles_good (fs : FS) (fmts : List String) (paths : List String)
    (h : ∀ p ∈ paths, CBZMerger.goodCbzInput fs p = true) :
    ∀ i page,
      CBZMerger.processFiles fs fmts paths i page =
        ⟨page + ((paths.map (CBZMerger.cbzImages fs)).flatten).length,
         CBZMerger.numbered page ((paths.map (CBZMerger.cbzImages fs)).flatten),
         [], paths.length, paths.map CBZMerger.MergeEffect.extractArchive⟩ := by
  induction paths with
  | nil => intro i page; rfl
  | cons p rest ih =>
    intro i page
    unfold CBZMerger.processFiles
    rw [stepFile_good fs fmts i p page (h p (List.mem_cons_self _ _))]
    dsimp only
    rw [ih (fun q hq => h q (List.mem_cons_of_mem _ hq)) (i + 1)
        (page + (CBZMerger.cbzImages fs p).length)]
    simp only [CBZMerger.ProcOut.mk.injEq]
    refine ⟨?_, ?_, rfl, ?_, ?_⟩
    · rw [List.map_cons, List.flatten_cons, List.length_append]
      omega
    · rw [List.map_cons, List.flatten_cons, numbered_append]
    · rw [List.length_cons]
      omega
    · rw [List.map_cons]
      rfl

/-! ## Claims -/

/-- Claim C2 (amended): for every list of fully readable `.cbz` archives
whose image entries are clean relative paths with a proper extension (no
bare dotfile names like `.jpg`), and a valid output path, the merge
succeeds, `total_pages` is the sum of the per-file page counts, the output
archive's image entries are exactly the lexicographically sorted list of
the names `{k:04d}{ext}` where `k` numbers the concatenation of the
per-file (sorted) image lists 1, 2, 3, … in input-list order, and their
number equals `total_pages`. -/
theorem claim_C2_amended (fs : FS) (paths : List String) (out : String) (pm : Bool)
    (hin : ∀ p ∈ paths, CBZMerger.goodCbzInput fs p = true)
    (hout : (FileUtils.validate_output_path fs out).1 = true) :
    (CBZMerger.merge_comic_files fs paths out pm none).1.success = true ∧
    (CBZMerger.merge_comic_files fs paths out pm none).1.total_pages =
      ((paths.map (CBZMerger.cbzImages fs)).flatten).length ∧
    (CBZMerger.merge_comic_files fs paths out pm none).1.total_pages =
      (paths.map (fun p => (CBZMerger.cbzImages fs p).length)).sum ∧
    (CBZMerger.merge_comic_files fs paths out pm none).2 =
      CBZMerger.MergeEffect.createWorkDir ::
        (paths.map CBZMerger.MergeEffect.extractArchive ++
          [CBZMerger.MergeEffect.writeOutput out
            (sortS strLe
              (CBZMerger.numbered 1 ((paths.map (CBZMerger.cbzImages fs)).flatten)))
            (pm && !paths.isEmpty)]) ∧
    (sortS strLe
      (CBZMerger.numbered 1 ((paths.map (CBZMerger.cbzImages fs)).flatten))).length =
      ((paths.map (CBZMerger.cbzImages fs)).flatten).length := by
  have hval := validate_good fs paths hin
  have hallimg : ∀ img ∈ (paths.map (CBZMerger.cbzImages fs)).flatten,
      CBZMerger.isImageFile img = true := by
    intro img hmem
    obtain ⟨l, hl, hil⟩ := List.mem_flatten.mp hmem
    obtain ⟨p, hp, rfl⟩ := List.mem_map.mp hl
    obtain ⟨es, -, -, -, himgs⟩ := goodCbz_facts fs p (hin p hp)
    exact (himgs img hil).2
  have hmeta : (pm && decide (0 < paths.length)) = (pm && !paths.isEmpty) := by
    cases paths <;> simp
  have hlen : ((paths.map (CBZMerger.cbzImages fs)).flatten).length =
      (paths.map (fun p => (CBZMerger.cbzImages fs p).length)).sum := by
    rw [List.length_flatten, List.map_map]
    rfl
  unfold CBZMerger.merge_comic_files
  dsimp only
  rw [hval, hout]
  simp only [List.isEmpty_nil, Bool.not_true, Bool.false_eq_true, if_false, Option.getD_none]
  simp only [processFiles_good fs ["jpg"] paths hin 0 1]
  rw [numbered_filter _ 1 hallimg, hmeta]
  refine ⟨trivial, ?_, ?_, rfl, ?_⟩
  · omega
  · rw [← hlen]
    omega
  · rw [length_sortS, numbered_length]

/-- Claim C2 amended, witness at a concrete input: two archives with page
counts `[1, 2]`. -/
theorem claim_C2_amended_witness :
    (CBZMerger.merge_comic_files fsC2 ["a.cbz", "b.cbz"] "/out/m.cbz" true none).1.success
      = true ∧
    (CBZMerger.merge_comic_files fsC2 ["a.cbz", "b.cbz"] "/out/m.cbz" true none).1.total_pages =
      ((["a.cbz", "b.cbz"].map (CBZMerger.cbzImages fsC2)).flatten).length ∧
    (CBZMerger.merge_comic_files fsC2 ["a.cbz", "b.cbz"] "/out/m.cbz" true none).1.total_pages =
      (["a.cbz", "b.cbz"].map (fun p => (CBZMerger.cbzImages fsC2 p).length)).sum ∧
    (CBZMerger.merge_comic_files fsC2 ["a.cbz", "b.cbz"] "/out/m.cbz" true none).2 =
      CBZMerger.MergeEffect.createWorkDir ::
        (["a.cbz", "b.cbz"].map CBZMerger.MergeEffect.extractArchive ++
          [CBZMerger.MergeEffect.writeOutput "/out/m.cbz"
            (sortS strLe
              (CBZMerger.numbered 1 ((["a.cbz", "b.cbz"].map (CBZMerger.cbzImages fsC2)).flatten)))
            (true && !(["a.cbz", "b.cbz"].isEmpty))]) ∧
    (sortS strLe
      (CBZMerger.numbered 1 ((["a.cbz", "b.cbz"].map (CBZMerger.cbzImages fsC2)).flatten))).length =
      ((["a.cbz", "b.cbz"].map (CBZMerger.cbzImages fsC2)).flatten).length :=
  claim_C2_amended fsC2 ["a.cbz", "b.cbz"] "/out/m.cbz" true (by decide) (by decide)

/-- Claim C2 counterexample: a valid CBZ containing the single entry `.jpg`
(a bare dotfile extension) counts one page — `total_pages = 1` — but
`Path('.jpg').suffix` is empty, so the staged file is named `0001` with no
extension and the packaging filter drops it: the output archive contains
zero image entries, not one. -/
theorem claim_C2_counterexample :
    (CBZMerger.validate_comic_files
      ⟨[("a.cbz", FileNode.archive [⟨".jpg", 3, 3, some [9]⟩])], ["/out"], ["/out"]⟩
      ["a.cbz"]).total_pages = 1 ∧
    (CBZMerger.merge_comic_files
      ⟨[("a.cbz", FileNode.archive [⟨".jpg", 3, 3, some [9]⟩])], ["/out"], ["/out"]⟩
      ["a.cbz"] "/out/m.cbz" true none).1.success = true ∧
    (CBZMerger.merge_comic_files
      ⟨[("a.cbz", FileNode.archive [⟨".jpg", 3, 3, some [9]⟩])], ["/out"], ["/out"]⟩
      ["a.cbz"] "/out/m.cbz" true none).1.total_pages = 1 ∧
    (CBZMerger.merge_comic_files
      ⟨[("a.cbz", FileNode.archive [⟨".jpg", 3, 3, some [9]⟩])], ["/out"], ["/out"]⟩
      ["a.cbz"] "/out/m.cbz" true none).2 =
      [CBZMerger.MergeEffect.createWorkDir, CBZMerger.MergeEffect.extractArchive "a.cbz",
       CBZMerger.MergeEffect.writeOutput "/out/m.cbz" [] true] := by
  refine ⟨by decide, by decide, by decide, by decide⟩

/-- Claim C3: the natural sort used when scanning a generic ZIP orders entry
leaf filenames by digit runs compared as integers and non-digit runs
compared case-insensitively: the comparator `nkLe` of
`validate_zip_file` places any entry named `img2.jpg` strictly before any
entry named `img10.jpg` (whatever their other fields), and `Img2.jpg` and
`img2.jpg` have equal sort keys. -/
theorem claim_C3_natural_sort :
    (∀ x1 s1 d1 x2 s2 d2,
      ZIPExtractor.nkLe ⟨"img2.jpg", x1, s1, d1⟩ ⟨"img10.jpg", x2, s2, d2⟩ = true ∧
      ZIPExtractor.nkLe ⟨"img10.jpg", x2, s2, d2⟩ ⟨"img2.jpg", x1, s1, d1⟩ = false) ∧
    natKeyOfName "Img2.jpg".data = natKeyOfName "img2.jpg".data ∧
    cmpKey ((natKeyOfName "img2.jpg".data).getD []) ((natKeyOfName "img10.jpg".data).getD [])
      = some Ordering.lt := by
  refine ⟨fun x1 s1 d1 x2 s2 d2 => ⟨rfl, rfl⟩, by decide, by decide⟩

/-- Claim C4 counterexample: a `.cbz`-named file whose container fails to
open (a corrupt blob) is still classified `CBZ` by `get_file_type`, because
the classifier returns `CBZ` from the extension alone; the claim states such
a file is not classified CBZ. -/
theorem claim_C4_counterexample :
    (FileUtils.get_file_type ⟨[("bad.cbz", .corrupt [0])], [], []⟩ "bad.cbz" = "CBZ") ∧
    (FileUtils.is_valid_cbz_file ⟨[("bad.cbz", .corrupt [0])], [], []⟩ "bad.cbz" = false) := by
  exact ⟨by decide, by decide⟩

/-- Claim C4 (amended): `get_file_type` returns `CBZ` exactly when the
path's extension is `.cbz` case-insensitively — the container is never
opened for `.cbz`-named paths (`is_valid_cbz_file` is consulted only in the
`.zip` branch, where its own extension check makes it fail). -/
theorem claim_C4_amended (fs : FS) (p : String) :
    FileUtils.get_file_type fs p = "CBZ" ↔ suffixLower p = ".cbz" := by
  unfold FileUtils.get_file_type
  by_cases h1 : suffixLower p = ".cbz"
  · simp [h1]
  · rw [if_neg h1]
    have hcbz : FileUtils.is_valid_cbz_file fs p = false := by
      cases h3 : FileUtils.is_valid_cbz_file fs p with
      | false => rfl
      | true => exact absurd (cbz_ext_of_valid fs p h3) h1
    by_cases h2 : suffixLower p = ".zip"
    · rw [if_pos h2, hcbz]
      simp only [Bool.false_eq_true, if_false]
      constructor
      · intro h
        cases h4 : FileUtils.is_valid_zip_file fs p <;> rw [h4] at h <;> simp at h
      · intro h
        exact absurd h h1
    · rw [if_neg h2]
      constructor
      · intro h; exact absurd h (by decide)
      · intro h; exact absurd h h1

/-- Claim C8 counterexample: a `.zip`-named file whose container opens fine
(and even contains images) is classified `ZIP`, not `CBZ` — the claim states
the CBZ check takes priority and classifies it `CBZ`, but `is_valid_cbz_file`
demands the `.cbz` extension and therefore always fails for `.zip` paths. -/
theorem claim_C8_counterexample :
    (∃ es, FS.file? ⟨[("a.zip", .archive [⟨"x.jpg", 1, 1, some []⟩])], [], []⟩ "a.zip"
        = some (.archive es)) ∧
    FileUtils.get_file_type ⟨[("a.zip", .archive [⟨"x.jpg", 1, 1, some []⟩])], [], []⟩ "a.zip"
      = "ZIP" ∧
    FileUtils.is_valid_cbz_file ⟨[("a.zip", .archive [⟨"x.jpg", 1, 1, some []⟩])], [], []⟩ "a.zip"
      = false := by
  exact ⟨⟨_, rfl⟩, by decide, by decide⟩

/-- Claim C8 (amended): a `.zip`-named file is never classified `CBZ`; it is
classified `ZIP` exactly when `is_valid_zip_file` accepts it (container
opens and at least one safe entry has a supported image extension). -/
theorem claim_C8_amended (fs : FS) (p : String) (h : suffixLower p = ".zip") :
    FileUtils.get_file_type fs p ≠ "CBZ" ∧
    (FileUtils.get_file_type fs p = "ZIP" ↔ FileUtils.is_valid_zip_file fs p = true) := by
  have hne : suffixLower p ≠ ".cbz" := by rw [h]; decide
  have hcbz : FileUtils.is_valid_cbz_file fs p = false := by
    cases hv : FileUtils.is_valid_cbz_file fs p with
    | false => rfl
    | true => exact absurd (cbz_ext_of_valid fs p hv) hne
  unfold FileUtils.get_file_type
  rw [if_neg hne, if_pos h, hcbz]
  simp only [Bool.false_eq_true, if_false]
  cases hz : FileUtils.is_valid_zip_file fs p <;> simp

/-- Claim C8 amended, witness at a concrete input: a `.zip` archive with one
image entry is classified `ZIP`, never `CBZ`. -/
theorem claim_C8_amended_witness :
    FileUtils.get_file_type ⟨[("w.zip", .archive [⟨"y.jpg", 1, 1, some []⟩])], [], []⟩ "w.zip"
      ≠ "CBZ" ∧
    (FileUtils.get_file_type ⟨[("w.zip", .archive [⟨"y.jpg", 1, 1, some []⟩])], [], []⟩ "w.zip"
      = "ZIP" ↔
     FileUtils.is_valid_zip_file ⟨[("w.zip", .archive [⟨"y.jpg", 1, 1, some []⟩])], [], []⟩ "w.zip"
      = true) :=
  claim_C8_amended ⟨[("w.zip", .archive [⟨"y.jpg", 1, 1, some []⟩])], [], []⟩ "w.zip" (by decide)

/-- Claim C9: the spec requires `extract_images` to default to `{jpg}` when
the caller passes no formats, but the code leaves the parameter `None` and
the membership test raises `TypeError`, so the call fails instead of
extracting the jpg entries; passing `{jpg}` explicitly succeeds on the same
archive, which shows the intended behavior was available. -/
theorem claim_C9_default_formats :
    (ZIPExtractor.extract_images ⟨[("z.zip", .archive [⟨"a.jpg", 1, 1, some [7]⟩])], [], []⟩
      "z.zip" "/o" none "ch1").success = false ∧
    (ZIPExtractor.extract_images ⟨[("z.zip", .archive [⟨"a.jpg", 1, 1, some [7]⟩])], [], []⟩
      "z.zip" "/o" none "ch1").error =
      some "提取图片时出错: argument of type 'NoneType' is not iterable" ∧
    (ZIPExtractor.extract_images ⟨[("z.zip", .archive [⟨"a.jpg", 1, 1, some [7]⟩])], [], []⟩
      "z.zip" "/o" (some ["jpg"]) "ch1").success = true ∧
    (ZIPExtractor.extract_images ⟨[("z.zip", .archive [⟨"a.jpg", 1, 1, some [7]⟩])], [], []⟩
      "z.zip" "/o" (some ["jpg"]) "ch1").total_extracted = 1 := by
  refine ⟨by decide, by decide, by decide, by decide⟩

/-- Claim C5 counterexample: a ZIP whose single matching entry fails to read
(zero files written) still yields `success = true` with
`total_extracted = 0` — the code sets `success` unconditionally after the
loop, so overall success does not require at least one extracted entry. -/
theorem claim_C5_counterexample :
    (ZIPExtractor.extract_images ⟨[("f.zip", .archive [⟨"a.jpg", 4, 4, none⟩])], [], []⟩
      "f.zip" "/o" (some ["jpg"]) "ch1").success = true ∧
    (ZIPExtractor.extract_images ⟨[("f.zip", .archive [⟨"a.jpg", 4, 4, none⟩])], [], []⟩
      "f.zip" "/o" (some ["jpg"]) "ch1").total_extracted = 0 ∧
    (ZIPExtractor.extract_images ⟨[("f.zip", .archive [⟨"a.jpg", 4, 4, none⟩])], [], []⟩
      "f.zip" "/o" (some ["jpg"]) "ch1").writes = [] := by
  refine ⟨by decide, by decide, by decide⟩

/-- Claim C5 (amended): `extract_images` returns `success = true` exactly
when validation succeeds and at least one scanned image entry matches the
requested formats; per-entry read failures are skipped without affecting
success, and `total_extracted` counts only the readable matching entries
(possibly zero). -/
theorem claim_C5_amended (fs : FS) (zp dir lbl : String) (fmts : List String) :
    ((ZIPExtractor.extract_images fs zp dir (some fmts) lbl).success = true ↔
      (ZIPExtractor.validate_zip_file fs zp).valid = true ∧
      (ZIPExtractor.validate_zip_file fs zp).image_files.filter
        (fun r => fmts.contains r.ext) ≠ []) ∧
    ((ZIPExtractor.extract_images fs zp dir (some fmts) lbl).success = true →
      (ZIPExtractor.extract_images fs zp dir (some fmts) lbl).total_extracted =
        (((ZIPExtractor.validate_zip_file fs zp).image_files.filter
            (fun r => fmts.contains r.ext)).filter (fun r => r.data.isSome)).length) := by
  rcases hf : fs.file? zp with _ | node
  · rw [extract_of_none fs zp dir (some fmts) lbl hf, validate_zip_of_none fs zp hf]
    simp
  · by_cases hsuf : suffixLower zp ≠ ".zip"
    · rw [extract_of_suffix fs zp dir (some fmts) lbl node hf hsuf,
          validate_zip_of_suffix fs zp node hf hsuf]
      simp
    · cases hv : (ZIPExtractor.validate_zip_file fs zp).valid with
      | false =>
        rw [extract_of_invalid fs zp dir (some fmts) lbl node hf hsuf hv]
        simp [hv]
      | true =>
        rw [extract_of_valid fs zp dir fmts lbl node hf hsuf hv]
        dsimp only
        by_cases htgt : ((ZIPExtractor.validate_zip_file fs zp).image_files.filter
            (fun r => fmts.contains r.ext)).isEmpty = true
        · have hemp := List.isEmpty_iff.mp htgt
          rw [if_pos htgt, hemp]
          simp
        · rw [if_neg htgt]
          refine ⟨⟨fun _ => ⟨rfl, fun hnil => htgt (by rw [hnil]; rfl)⟩, fun _ => rfl⟩,
            fun _ => buildWrites_length lbl dir _ 0⟩

/-- Claim C5 amended, witness at a concrete input: one readable matching
entry, success with one extraction. -/
theorem claim_C5_amended_witness :
    (ZIPExtractor.extract_images ⟨[("w.zip", .archive [⟨"a.jpg", 1, 1, some [7]⟩])], [], []⟩
      "w.zip" "/o" (some ["jpg"]) "ch1").total_extracted =
      ((((ZIPExtractor.validate_zip_file
          ⟨[("w.zip", .archive [⟨"a.jpg", 1, 1, some [7]⟩])], [], []⟩ "w.zip").image_files.filter
            (fun r => ["jpg"].contains r.ext)).filter (fun r => r.data.isSome)).length) :=
  (claim_C5_amended ⟨[("w.zip", .archive [⟨"a.jpg", 1, 1, some [7]⟩])], [], []⟩
    "w.zip" "/o" "ch1" ["jpg"]).2 (by decide)

/-- Claim C1 (amended): when some input fails the comic-file validation
(not a readable CBZ/ZIP container, or a ZIP without supported images), the
merge aborts with `success = false`, the error `部分文件无效`, the failing
path listed among the invalid files, and no filesystem effect at all: no
working directory is created, no extraction happens, no output archive is
written, and the filesystem is unchanged.  (A CBZ that validates but has
zero image pages is NOT treated as invalid — see the counterexample.) -/
theorem claim_C1_amended (fs : FS) (paths : List String) (out : String) (pm : Bool)
    (zfmts : Option (List String)) (p : String) (hp : p ∈ paths)
    (hbad : FileUtils.is_valid_comic_file fs p = false) :
    (CBZMerger.merge_comic_files fs paths out pm zfmts).1.success = false ∧
    (CBZMerger.merge_comic_files fs paths out pm zfmts).1.error = some "部分文件无效" ∧
    (p, "不是有效的漫画文件（CBZ或ZIP）") ∈
      (CBZMerger.merge_comic_files fs paths out pm zfmts).1.invalid_files ∧
    (CBZMerger.merge_comic_files fs paths out pm zfmts).2 = [] ∧
    CBZMerger.applyEffects fs (CBZMerger.merge_comic_files fs paths out pm zfmts).2 = fs := by
  have hmem := validate_mem_invalid fs paths p hp hbad
  have hne : (CBZMerger.validate_comic_files fs paths).invalid_files ≠ [] :=
    List.ne_nil_of_mem hmem
  have hie : (CBZMerger.validate_comic_files fs paths).invalid_files.isEmpty = false := by
    cases hi : (CBZMerger.validate_comic_files fs paths).invalid_files.isEmpty with
    | false => rfl
    | true => exact absurd (List.isEmpty_iff.mp hi) hne
  unfold CBZMerger.merge_comic_files
  dsimp only
  rw [hie]
  exact ⟨rfl, rfl, hmem, rfl, rfl⟩

/-- Claim C1 amended, witness at a concrete input: one nonexistent input
path aborts the merge with no effects. -/
theorem claim_C1_amended_witness :
    (CBZMerger.merge_comic_files ⟨[], ["/out"], ["/out"]⟩ ["nope.cbz"] "/out/m.cbz"
      true none).1.success = false ∧
    (CBZMerger.merge_comic_files ⟨[], ["/out"], ["/out"]⟩ ["nope.cbz"] "/out/m.cbz"
      true none).1.error = some "部分文件无效" ∧
    ("nope.cbz", "不是有效的漫画文件（CBZ或ZIP）") ∈
      (CBZMerger.merge_comic_files ⟨[], ["/out"], ["/out"]⟩ ["nope.cbz"] "/out/m.cbz"
        true none).1.invalid_files ∧
    (CBZMerger.merge_comic_files ⟨[], ["/out"], ["/out"]⟩ ["nope.cbz"] "/out/m.cbz"
      true none).2 = [] ∧
    CBZMerger.applyEffects ⟨[], ["/out"], ["/out"]⟩
      (CBZMerger.merge_comic_files ⟨[], ["/out"], ["/out"]⟩ ["nope.cbz"] "/out/m.cbz"
        true none).2 = ⟨[], ["/out"], ["/out"]⟩ :=
  claim_C1_amended ⟨[], ["/out"], ["/out"]⟩ ["nope.cbz"] "/out/m.cbz" true none "nope.cbz"
    (by decide) (by decide)

/-- Claim C1 counterexample: an input with zero qualifying pages (a `.cbz`
archive containing no image entries) is NOT rejected — the claim calls such
an input invalid and demands `success = false` with no output and no working
directory, but the merge validates it, creates the working directory,
extracts it, writes an output archive and returns `success = true`. -/
theorem claim_C1_counterexample :
    (CBZMerger.validate_comic_files
      ⟨[("empty.cbz", FileNode.archive [⟨"readme.txt", 3, 3, some []⟩])], ["/out"], ["/out"]⟩
      ["empty.cbz"]).total_pages = 0 ∧
    (CBZMerger.validate_comic_files
      ⟨[("empty.cbz", FileNode.archive [⟨"readme.txt", 3, 3, some []⟩])], ["/out"], ["/out"]⟩
      ["empty.cbz"]).invalid_files = [] ∧
    (CBZMerger.merge_comic_files
      ⟨[("empty.cbz", FileNode.archive [⟨"readme.txt", 3, 3, some []⟩])], ["/out"], ["/out"]⟩
      ["empty.cbz"] "/out/m.cbz" true none).1.success = true ∧
    (CBZMerger.merge_comic_files
      ⟨[("empty.cbz", FileNode.archive [⟨"readme.txt", 3, 3, some []⟩])], ["/out"], ["/out"]⟩
      ["empty.cbz"] "/out/m.cbz" true none).2 =
      [CBZMerger.MergeEffect.createWorkDir, CBZMerger.MergeEffect.extractArchive "empty.cbz",
       CBZMerger.MergeEffect.writeOutput "/out/m.cbz" [] true] := by
  refine ⟨by decide, by decide, by decide, by decide⟩

/-- Claim C6 (amended): when every input passes validation and the output
path already exists, the merge stops at output-path validation: it fails
with the path-validation error, performs no extraction work, and leaves the
filesystem — in particular the pre-existing output file — byte-for-byte
unchanged.  (When some input is invalid, the merge instead returns the
input-validation error `部分文件无效` first — see the counterexample — but
still leaves the file unchanged.) -/
theorem claim_C6_amended (fs : FS) (paths : List String) (out : String) (pm : Bool)
    (zfmts : Option (List String))
    (hv : (CBZMerger.validate_comic_files fs paths).invalid_files = [])
    (hex : (fs.file? out).isSome = true) :
    (CBZMerger.merge_comic_files fs paths out pm zfmts).1.success = false ∧
    (FileUtils.validate_output_path fs out).1 = false ∧
    (CBZMerger.merge_comic_files fs paths out pm zfmts).1.error =
      some (FileUtils.validate_output_path fs out).2 ∧
    (CBZMerger.merge_comic_files fs paths out pm zfmts).2 = [] ∧
    CBZMerger.applyEffects fs (CBZMerger.merge_comic_files fs paths out pm zfmts).2 = fs ∧
    (CBZMerger.applyEffects fs (CBZMerger.merge_comic_files fs paths out pm zfmts).2).file? out
      = fs.file? out := by
  have hov : (FileUtils.validate_output_path fs out).1 = false := by
    unfold FileUtils.validate_output_path
    dsimp only
    cases h1 : fs.dirs.contains (parentOf out) with
    | false => rfl
    | true =>
      cases h2 : fs.writable.contains (parentOf out) with
      | false => rfl
      | true =>
        rw [hex]
        rfl
  unfold CBZMerger.merge_comic_files
  dsimp only
  rw [hv, hov]
  exact ⟨rfl, rfl, rfl, rfl, rfl, rfl⟩

/-- Claim C6 amended, witness at a concrete input: valid input list, output
file already present, merge rejects with the path-validation error and no
effects. -/
theorem claim_C6_amended_witness :
    (CBZMerger.merge_comic_files
      ⟨[("a.cbz", .archive [⟨"p1.jpg", 1, 1, some [1]⟩]), ("out.cbz", .corrupt [9])], ["."], ["."]⟩
      ["a.cbz"] "out.cbz" true none).1.success = false ∧
    (FileUtils.validate_output_path
      ⟨[("a.cbz", .archive [⟨"p1.jpg", 1, 1, some [1]⟩]), ("out.cbz", .corrupt [9])], ["."], ["."]⟩
      "out.cbz").1 = false ∧
    (CBZMerger.merge_comic_files
      ⟨[("a.cbz", .archive [⟨"p1.jpg", 1, 1, some [1]⟩]), ("out.cbz", .corrupt [9])], ["."], ["."]⟩
      ["a.cbz"] "out.cbz" true none).1.error =
      some (FileUtils.validate_output_path
        ⟨[("a.cbz", .archive [⟨"p1.jpg", 1, 1, some [1]⟩]), ("out.cbz", .corrupt [9])], ["."], ["."]⟩
        "out.cbz").2 ∧
    (CBZMerger.merge_comic_files
      ⟨[("a.cbz", .archive [⟨"p1.jpg", 1, 1, some [1]⟩]), ("out.cbz", .corrupt [9])], ["."], ["."]⟩
      ["a.cbz"] "out.cbz" true none).2 = [] ∧
    CBZMerger.applyEffects
      ⟨[("a.cbz", .archive [⟨"p1.jpg", 1, 1, some [1]⟩]), ("out.cbz", .corrupt [9])], ["."], ["."]⟩
      (CBZMerger.merge_comic_files
        ⟨[("a.cbz", .archive [⟨"p1.jpg", 1, 1, some [1]⟩]), ("out.cbz", .corrupt [9])], ["."], ["."]⟩
        ["a.cbz"] "out.cbz" true none).2 =
      ⟨[("a.cbz", .archive [⟨"p1.jpg", 1, 1, some [1]⟩]), ("out.cbz", .corrupt [9])], ["."], ["."]⟩ ∧
    (CBZMerger.applyEffects
      ⟨[("a.cbz", .archive [⟨"p1.jpg", 1, 1, some [1]⟩]), ("out.cbz", .corrupt [9])], ["."], ["."]⟩
      (CBZMerger.merge_comic_files
        ⟨[("a.cbz", .archive [⟨"p1.jpg", 1, 1, some [1]⟩]), ("out.cbz", .corrupt [9])], ["."], ["."]⟩
        ["a.cbz"] "out.cbz" true none).2).file? "out.cbz" =
      FS.file?
        ⟨[("a.cbz", .archive [⟨"p1.jpg", 1, 1, some [1]⟩]), ("out.cbz", .corrupt [9])], ["."], ["."]⟩
        "out.cbz" :=
  claim_C6_amended
    ⟨[("a.cbz", .archive [⟨"p1.jpg", 1, 1, some [1]⟩]), ("out.cbz", .corrupt [9])], ["."], ["."]⟩
    ["a.cbz"] "out.cbz" true none (by decide) (by decide)

/-- Claim C6 counterexample: with an invalid input AND an existing output
path, the merge returns the input-validation error `部分文件无效`, not a
path-validation error — the claim's "for every call … returns a
path-validation error" fails (the no-modification part still holds: no
effects are produced). -/
theorem claim_C6_counterexample :
    ((FS.file? ⟨[("out.cbz", .corrupt [0])], ["."], ["."]⟩ "out.cbz").isSome = true) ∧
    (CBZMerger.merge_comic_files ⟨[("out.cbz", .corrupt [0])], ["."], ["."]⟩
      ["nope.cbz"] "out.cbz" true none).1.error = some "部分文件无效" ∧
    (CBZMerger.merge_comic_files ⟨[("out.cbz", .corrupt [0])], ["."], ["."]⟩
      ["nope.cbz"] "out.cbz" true none).1.error ≠
      some (FileUtils.validate_output_path ⟨[("out.cbz", .corrupt [0])], ["."], ["."]⟩
        "out.cbz").2 ∧
    (FileUtils.validate_output_path ⟨[("out.cbz", .corrupt [0])], ["."], ["."]⟩ "out.cbz").2 =
      "文件已存在: out.cbz" := by
  refine ⟨by decide, by decide, by decide, by decide⟩

/-- Claim C10 (amended): for every filename whose characters never satisfy
`str.isdigit` without being decimal digits (no superscripts such as `²`),
`natural_sort_key` returns a well-formed key: lowercased strings at even
positions and integers at odd positions, and comparing two such keys never
compares an integer against a string (the comparison always yields a
result), so sorting any list of such entries is total. -/
theorem claim_C10_amended (name : List Char)
    (h : ∀ c ∈ name, pyIsDigitChar c = true → reDigit c = true) :
    ∃ key, natKeyOfName name = some key ∧ keyAltOk false key = true ∧
      ∀ key2, keyAltOk false key2 = true →
        (cmpKey key key2).isSome = true ∧ (cmpKey key2 key).isSome = true := by
  have halt := piecesAlt_reSplit (leafName name)
  have hchars : ∀ t ∈ reSplitDigits (leafName name), ∀ c ∈ t,
      pyIsDigitChar c = true → reDigit c = true :=
    fun t ht c hc => h c (leafName_chars name c (reSplit_chars (leafName name) t ht c hc))
  obtain ⟨key, hk, ha⟩ := mapM_pieceKey_alt _ false halt hchars
  exact ⟨key, hk, ha, fun key2 h2 =>
    ⟨cmpKey_total key key2 false ha h2, cmpKey_total key2 key false h2 ha⟩⟩

/-- Claim C10 amended, witness at a concrete input: the key of `img2.jpg`
computes and is well-formed. -/
theorem claim_C10_amended_witness :
    ∃ key, natKeyOfName "img2.jpg".data = some key ∧ keyAltOk false key = true ∧
      ∀ key2, keyAltOk false key2 = true →
        (cmpKey key key2).isSome = true ∧ (cmpKey key2 key).isSome = true :=
  claim_C10_amended "img2.jpg".data (by decide)

/-- Claim C10 counterexample: the natural-sort key function does not always
produce a well-formed key; on the filename `²` (Python `str.isdigit` is true
but `int(...)` rejects it) the key computation raises, modelled by `none`. -/
theorem claim_C10_counterexample :
    ¬ ∀ name : List Char, (natKeyOfName name).isSome = true := by
  intro h
  have h2 := h ['²']
  revert h2
  decide

end ComicManager
